import Mathlib

/-!
Verification development for the IDE repository's incremental re-analysis
and batching pipeline.

The definitions below are a shallow embedding of the TypeScript source:

* `countChangedLines`           — src/frontend/src/app/App.tsx, lines 16-45
* `handleCodeChange`            — src/frontend/src/app/App.tsx, lines 443-462
* `extractPythonFunctions`      — src/frontend/src/app/components/AIPanel.tsx, lines 50-99
* `chunksOf5` / `analyzeCode`   — src/frontend/src/app/components/AIPanel.tsx, lines 236-297
* `runVibeTask`                 — src/frontend/src/app/components/AIPanel.tsx, lines 313-406
* `processRubberDuckyTranscript`— src/unnamed/part_001, lines 103-167 and 435-445

Strings are modelled through their character lists (`String.data`); JavaScript
host primitives (`split("\n")`, `trim()`, `toLowerCase()`, `includes`) are
translated to explicit recursive functions with the same single-separator
semantics.  Network calls (`fetch`, `model.generateContent`) and `JSON.parse`
are host services and are modelled as environment oracles, exactly as the
spec treats them ("opaque request/response services").
-/

namespace IDE

/-! ## JavaScript string primitives (on `List Char`) -/

/-- The whitespace class used by the JS regexes (`\s`), `trim()` and blank-line
tests, restricted to the ASCII whitespace characters that can occur in the
editor's line-split content. -/
def jsSpace (c : Char) : Bool :=
  c = ' ' || c = '\t' || c = '\n' || c = '\r' || c = '\x0b' || c = '\x0c'

/-- JS `s.split("\n")` : splitting a character list at every newline.
`[] ↦ [[]]` just as `"".split("\n") = [""]`. -/
def splitNl : List Char → List (List Char)
  | [] => [[]]
  | c :: rest =>
    if c = '\n' then [] :: splitNl rest
    else
      match splitNl rest with
      | l :: ls => (c :: l) :: ls
      | [] => [[c]]

/-- JS `lines.join("\n")`, the left inverse of `splitNl`. -/
def joinNl : List (List Char) → List Char
  | [] => []
  | [l] => l
  | l :: ls => l ++ '\n' :: joinNl ls

/-- JS `s.trim()` : drop whitespace from both ends. -/
def jsTrimL (l : List Char) : List Char :=
  ((l.dropWhile jsSpace).reverse.dropWhile jsSpace).reverse

/-- JS `s.toLowerCase()` (ASCII). -/
def toLowerL (l : List Char) : List Char := l.map Char.toLower

/-- `needle` is a leading segment of `hay`. -/
def startsWithL : List Char → List Char → Bool
  | [], _ => true
  | _ :: _, [] => false
  | a :: as, b :: bs => a = b && startsWithL as bs

/-- JS `hay.includes(needle)`. -/
def jsIncludes (hay needle : List Char) : Bool :=
  match hay with
  | [] => startsWithL needle []
  | c :: t => startsWithL needle (c :: t) || jsIncludes t needle

theorem splitNl_ne_nil (l : List Char) : splitNl l ≠ [] := by
  induction l with
  | nil => simp [splitNl]
  | cons c rest ih =>
    simp only [splitNl]
    split
    · simp
    · split <;> simp

/-- `joinNl` undoes `splitNl`: the line decomposition loses no information. -/
theorem joinNl_splitNl (l : List Char) : joinNl (splitNl l) = l := by
  induction l with
  | nil => simp [splitNl, joinNl]
  | cons c rest ih =>
    simp only [splitNl]
    split
    · rename_i h
      subst h
      have hne := splitNl_ne_nil rest
      cases hsp : splitNl rest with
      | nil => exact absurd hsp hne
      | cons x xs =>
        rw [hsp] at ih
        simp [joinNl, ih]
    · have hne := splitNl_ne_nil rest
      cases hsp : splitNl rest with
      | nil => exact absurd hsp hne
      | cons x xs =>
        rw [hsp] at ih
        show joinNl ((c :: x) :: xs) = c :: rest
        cases xs with
        | nil => simpa [joinNl] using congrArg (c :: ·) ih
        | cons y ys =>
          simp only [joinNl] at ih ⊢
          simp [ih]

theorem splitNl_injective {a b : List Char} (h : splitNl a = splitNl b) : a = b := by
  have := joinNl_splitNl a
  rw [h, joinNl_splitNl] at this
  exact this.symm

/-! ## countChangedLines — src/frontend/src/app/App.tsx lines 16-45 -/

abbrev Line := List Char

/-- The first while-loop of `countChangedLines`: advance `start` while both
lists still have a line at that index and the lines agree.  The result is the
final value of `start`. -/
def commonPrefixLen : List Line → List Line → Nat
  | a :: as, b :: bs => if a = b then commonPrefixLen as bs + 1 else 0
  | _, _ => 0

/-- The second while-loop of `countChangedLines`: decrement `beforeEnd` and
`afterEnd` while both are `≥ start` and the indexed lines agree.  Indices are
JS numbers that may go to `start - 1` (possibly `-1`), hence `Int`. -/
def suffixLoop (A B : List Line) (start bEnd aEnd : Int) : Int × Int :=
  if start ≤ bEnd ∧ start ≤ aEnd ∧ A.getD bEnd.toNat [] = B.getD aEnd.toNat [] then
    suffixLoop A B start (bEnd - 1) (aEnd - 1)
  else (bEnd, aEnd)
termination_by (bEnd + 1 - start).toNat
decreasing_by omega

/-- src/frontend/src/app/App.tsx lines 16-45.  `removedLines`/`addedLines` are
clamped at 0 exactly as `Math.max(0, …)`; the result (a non-negative count) is
returned as a `Nat`. -/
def countChangedLines (before after : String) : Nat :=
  if before = after then 0
  else
    let beforeLines := splitNl before.data
    let afterLines := splitNl after.data
    let start : Int := commonPrefixLen beforeLines afterLines
    let ends := suffixLoop beforeLines afterLines start
      ((beforeLines.length : Int) - 1) ((afterLines.length : Int) - 1)
    let removedLines := max 0 (ends.1 - start + 1)
    let addedLines := max 0 (ends.2 - start + 1)
    (max removedLines addedLines).toNat

/-- Modelled from the claim's words: trim the longest common leading run of
lines from both lists. -/
def dropCommonLead : List Line → List Line → List Line × List Line
  | a :: as, b :: bs => if a = b then dropCommonLead as bs else (a :: as, b :: bs)
  | as, bs => (as, bs)

/-- Modelled from the claim's words: trim the longest common line prefix, then
the longest common line suffix of what remains, and take the maximum of the
remaining line counts. -/
def magnitudeSpec (before after : String) : Nat :=
  let p := dropCommonLead (splitNl before.data) (splitNl after.data)
  let q := dropCommonLead p.1.reverse p.2.reverse
  max q.1.length q.2.length

theorem commonPrefixLen_le_left : ∀ (A B : List Line), commonPrefixLen A B ≤ A.length := by
  intro A
  induction A with
  | nil => intro B; cases B <;> simp [commonPrefixLen]
  | cons a as ih =>
    intro B
    cases B with
    | nil => simp [commonPrefixLen]
    | cons b bs =>
      simp only [commonPrefixLen, List.length_cons]
      split
      · have := ih bs; omega
      · omega

theorem commonPrefixLen_le_right : ∀ (A B : List Line), commonPrefixLen A B ≤ B.length := by
  intro A
  induction A with
  | nil => intro B; cases B <;> simp [commonPrefixLen]
  | cons a as ih =>
    intro B
    cases B with
    | nil => simp [commonPrefixLen]
    | cons b bs =>
      simp only [commonPrefixLen, List.length_cons]
      split
      · have := ih bs; omega
      · omega

theorem commonPrefixLen_comm : ∀ (A B : List Line), commonPrefixLen A B = commonPrefixLen B A := by
  intro A
  induction A with
  | nil => intro B; cases B <;> simp [commonPrefixLen]
  | cons a as ih =>
    intro B
    cases B with
    | nil => simp [commonPrefixLen]
    | cons b bs =>
      simp only [commonPrefixLen]
      by_cases h : a = b
      · subst h; simp [ih bs]
      · have h2 : ¬b = a := fun hh => h (Eq.symm hh)
        simp [h, h2]

theorem commonPrefixLen_self : ∀ (A : List Line), commonPrefixLen A A = A.length := by
  intro A
  induction A with
  | nil => simp [commonPrefixLen]
  | cons a as ih => simp [commonPrefixLen, ih]

theorem commonPrefixLen_getD : ∀ (A B : List Line) (j : Nat), j < commonPrefixLen A B →
    A.getD j [] = B.getD j [] := by
  intro A
  induction A with
  | nil => intro B j h; cases B <;> simp [commonPrefixLen] at h
  | cons a as ih =>
    intro B j h
    cases B with
    | nil => simp [commonPrefixLen] at h
    | cons b bs =>
      simp only [commonPrefixLen] at h
      split at h
      · rename_i hab
        cases j with
        | zero => simpa using hab
        | succ j' => simpa using ih bs j' (by omega)
      · omega

theorem commonPrefixLen_max : ∀ (A B : List Line),
    commonPrefixLen A B = A.length ∨ commonPrefixLen A B = B.length ∨
    (commonPrefixLen A B < A.length ∧ commonPrefixLen A B < B.length ∧
      A.getD (commonPrefixLen A B) [] ≠ B.getD (commonPrefixLen A B) []) := by
  intro A
  induction A with
  | nil => intro B; left; simp [commonPrefixLen]
  | cons a as ih =>
    intro B
    cases B with
    | nil => right; left; cases as <;> simp [commonPrefixLen]
    | cons b bs =>
      simp only [commonPrefixLen]
      by_cases hab : a = b
      · subst hab
        rw [if_pos rfl]
        simp only [List.length_cons]
        rcases ih bs with h | h | ⟨h1, h2, h3⟩
        · left; omega
        · right; left; omega
        · right; right
          refine ⟨by omega, by omega, ?_⟩
          simpa using h3
      · right; right
        simp [hab]

theorem commonPrefixLen_eq_of_full : ∀ (A B : List Line),
    commonPrefixLen A B = A.length → commonPrefixLen A B = B.length → A = B := by
  intro A
  induction A with
  | nil =>
    intro B h1 h2
    cases B with
    | nil => rfl
    | cons b bs => simp [commonPrefixLen] at h2
  | cons a as ih =>
    intro B h1 h2
    cases B with
    | nil => simp [commonPrefixLen] at h1
    | cons b bs =>
      simp only [commonPrefixLen] at h1 h2
      by_cases hab : a = b
      · subst hab
        rw [if_pos rfl] at h1 h2
        simp only [List.length_cons] at h1 h2
        rw [ih bs (by omega) (by omega)]
      · rw [if_neg hab] at h1
        simp at h1

theorem dropCommonLead_eq : ∀ (A B : List Line),
    dropCommonLead A B = (A.drop (commonPrefixLen A B), B.drop (commonPrefixLen A B)) := by
  intro A
  induction A with
  | nil => intro B; cases B <;> simp [dropCommonLead, commonPrefixLen]
  | cons a as ih =>
    intro B
    cases B with
    | nil => simp [dropCommonLead, commonPrefixLen]
    | cons b bs =>
      simp only [dropCommonLead, commonPrefixLen]
      by_cases hab : a = b
      · simp [hab, ih bs]
      · simp [hab]

theorem dropCommonLead_fst (A B : List Line) :
    (dropCommonLead A B).1 = A.drop (commonPrefixLen A B) := by
  rw [dropCommonLead_eq]

theorem dropCommonLead_snd (A B : List Line) :
    (dropCommonLead A B).2 = B.drop (commonPrefixLen A B) := by
  rw [dropCommonLead_eq]

theorem getD_rev_drop (A : List Line) (s k : Nat) (h : s + k < A.length) :
    ((A.drop s).reverse).getD k [] = A.getD (A.length - 1 - k) [] := by
  have h1 : k < (A.drop s).length := by simp [List.length_drop]; omega
  rw [List.getD_eq_getElem?_getD, List.getD_eq_getElem?_getD]
  rw [List.getElem?_reverse h1]
  rw [List.getElem?_drop]
  congr 2
  simp [List.length_drop]
  omega

theorem commonPrefixLen_take : ∀ (A B : List Line),
    A.take (commonPrefixLen A B) = B.take (commonPrefixLen A B) := by
  intro A
  induction A with
  | nil => intro B; cases B <;> simp [commonPrefixLen]
  | cons a as ih =>
    intro B
    cases B with
    | nil => simp [commonPrefixLen]
    | cons b bs =>
      simp only [commonPrefixLen]
      by_cases hab : a = b
      · subst hab
        rw [if_pos rfl]
        simp [ih bs]
      · simp [hab]

/-- The second while-loop of `countChangedLines` computes the longest common
line-suffix of the two remainders: starting with `k` matching trailing lines
already trimmed, it stops with both indices moved past the full common suffix
of the parts after `start`. -/
theorem suffixLoop_eq (A B : List Line) (s : Nat) :
    ∀ n k, k + n = commonPrefixLen (A.drop s).reverse (B.drop s).reverse →
    suffixLoop A B (s : Int) ((A.length : Int) - 1 - k) ((B.length : Int) - 1 - k) =
      ((A.length : Int) - 1 - (commonPrefixLen (A.drop s).reverse (B.drop s).reverse : Int),
       (B.length : Int) - 1 - (commonPrefixLen (A.drop s).reverse (B.drop s).reverse : Int)) := by
  have hRA : (A.drop s).reverse.length = A.length - s := by simp
  have hRB : (B.drop s).reverse.length = B.length - s := by simp
  set c := commonPrefixLen (A.drop s).reverse (B.drop s).reverse with hcdef
  have hcA : c ≤ A.length - s := by
    have := commonPrefixLen_le_left (A.drop s).reverse (B.drop s).reverse
    omega
  have hcB : c ≤ B.length - s := by
    have := commonPrefixLen_le_right (A.drop s).reverse (B.drop s).reverse
    omega
  intro n
  induction n with
  | zero =>
    intro k hk
    have hkc : k = c := by omega
    rw [suffixLoop]
    split
    · rename_i hg
      obtain ⟨hg1, hg2, hg3⟩ := hg
      exfalso
      rcases commonPrefixLen_max (A.drop s).reverse (B.drop s).reverse with h | h | ⟨h1, h2, h3⟩
      · rw [hRA] at h; omega
      · rw [hRB] at h; omega
      · rw [hRA] at h1
        rw [hRB] at h2
        have tA : (((A.length : Int) - 1 - k).toNat) = A.length - 1 - k := by omega
        have tB : (((B.length : Int) - 1 - k).toNat) = B.length - 1 - k := by omega
        rw [tA, tB] at hg3
        rw [← getD_rev_drop A s k (by omega), ← getD_rev_drop B s k (by omega)] at hg3
        rw [hkc] at hg3
        exact h3 hg3
    · simp only [Prod.mk.injEq]
      constructor <;> omega
  | succ m ih =>
    intro k hk
    rw [suffixLoop]
    split
    · rename_i hg
      have eA : (A.length : Int) - 1 - (k : Int) - 1 = (A.length : Int) - 1 - ((k + 1 : Nat) : Int) := by
        push_cast; ring
      have eB : (B.length : Int) - 1 - (k : Int) - 1 = (B.length : Int) - 1 - ((k + 1 : Nat) : Int) := by
        push_cast; ring
      rw [eA, eB]
      exact ih (k + 1) (by omega)
    · rename_i hg
      exfalso
      apply hg
      refine ⟨by omega, by omega, ?_⟩
      have tA : (((A.length : Int) - 1 - k).toNat) = A.length - 1 - k := by omega
      have tB : (((B.length : Int) - 1 - k).toNat) = B.length - 1 - k := by omega
      rw [tA, tB]
      rw [← getD_rev_drop A s k (by omega), ← getD_rev_drop B s k (by omega)]
      exact commonPrefixLen_getD _ _ k (by omega)

/-- `countChangedLines` computes exactly the claim's trim-then-diff magnitude:
trim the longest common line prefix, then the longest common line suffix of
the remainder, and return the max of the remaining line counts. -/
theorem countChangedLines_eq_magnitudeSpec (before after : String) :
    countChangedLines before after = magnitudeSpec before after := by
  by_cases heq : before = after
  · subst heq
    simp only [countChangedLines, magnitudeSpec, if_pos rfl,
      dropCommonLead_fst, dropCommonLead_snd]
    rw [commonPrefixLen_self, List.drop_length]
    simp [commonPrefixLen]
  · simp only [countChangedLines, magnitudeSpec, if_neg heq,
      dropCommonLead_fst, dropCommonLead_snd]
    set A := splitNl before.data with hA
    set B := splitNl after.data with hB
    set s := commonPrefixLen A B with hs
    set c := commonPrefixLen (A.drop s).reverse (B.drop s).reverse with hc
    have h0 := suffixLoop_eq A B s c 0 (by omega)
    simp only [Nat.cast_zero, sub_zero] at h0
    rw [h0]
    have hsA : s ≤ A.length := commonPrefixLen_le_left A B
    have hsB : s ≤ B.length := commonPrefixLen_le_right A B
    have hcA : c ≤ A.length - s := by
      have := commonPrefixLen_le_left (A.drop s).reverse (B.drop s).reverse
      simp at this
      omega
    have hcB : c ≤ B.length - s := by
      have := commonPrefixLen_le_right (A.drop s).reverse (B.drop s).reverse
      simp at this
      omega
    simp only [List.length_drop, List.length_reverse]
    simp only [max_def]
    split_ifs <;> omega

theorem countChangedLines_self (x : String) : countChangedLines x x = 0 := by
  simp [countChangedLines]

theorem countChangedLines_eq_zero_iff (before after : String) :
    countChangedLines before after = 0 ↔ before = after := by
  constructor
  · intro h
    by_contra hne
    rw [countChangedLines_eq_magnitudeSpec] at h
    simp only [magnitudeSpec, dropCommonLead_fst, dropCommonLead_snd] at h
    set A := splitNl before.data with hA
    set B := splitNl after.data with hB
    set s := commonPrefixLen A B with hs
    set c := commonPrefixLen (A.drop s).reverse (B.drop s).reverse with hc
    simp only [List.length_drop, List.length_reverse] at h
    have hsA : s ≤ A.length := commonPrefixLen_le_left A B
    have hsB : s ≤ B.length := commonPrefixLen_le_right A B
    have hcA : c ≤ A.length - s := by
      have := commonPrefixLen_le_left (A.drop s).reverse (B.drop s).reverse
      simp at this
      omega
    have hcB : c ≤ B.length - s := by
      have := commonPrefixLen_le_right (A.drop s).reverse (B.drop s).reverse
      simp at this
      omega
    have hlenA : A.length - s - c = 0 := by omega
    have hlenB : B.length - s - c = 0 := by omega
    have hfullA : c = (A.drop s).reverse.length := by simp; omega
    have hfullB : c = (B.drop s).reverse.length := by simp; omega
    have hrev : (A.drop s).reverse = (B.drop s).reverse :=
      commonPrefixLen_eq_of_full _ _ (by rw [← hc, hfullA]) (by rw [← hc, hfullB])
    have hdrop : A.drop s = B.drop s := List.reverse_injective hrev
    have htake : A.take s = B.take s := commonPrefixLen_take A B
    have hAB : A = B := by
      rw [← List.take_append_drop s A, ← List.take_append_drop s B, htake, hdrop]
    have : before.data = after.data := splitNl_injective (by rw [← hA, ← hB, hAB])
    apply hne
    cases before
    cases after
    simp_all
  · intro h
    subst h
    exact countChangedLines_self _

theorem magnitudeSpec_comm (a b : String) : magnitudeSpec a b = magnitudeSpec b a := by
  simp only [magnitudeSpec, dropCommonLead_fst, dropCommonLead_snd]
  rw [commonPrefixLen_comm (splitNl b.data) (splitNl a.data)]
  rw [commonPrefixLen_comm ((splitNl b.data).drop (commonPrefixLen (splitNl a.data) (splitNl b.data))).reverse]
  exact Nat.max_comm _ _

/-- C5: for every pair of texts, `countChangedLines` equals the maximum of the
remaining before-line count and after-line count after trimming the longest
common line prefix and then the longest common line suffix of what remains
(`magnitudeSpec`); in particular `countChangedLines x x = 0`, and the count is
`0` only when the two texts are equal. -/
theorem claim_C5 (before after : String) :
    countChangedLines before after = magnitudeSpec before after ∧
    countChangedLines before before = 0 ∧
    (countChangedLines before after = 0 ↔ before = after) :=
  ⟨countChangedLines_eq_magnitudeSpec before after,
   countChangedLines_self before,
   countChangedLines_eq_zero_iff before after⟩

/-- C10: `countChangedLines` is symmetric — the common-prefix trim, the
common-suffix trim and the final max are each invariant under swapping the
two arguments. -/
theorem claim_C10 (a b : String) : countChangedLines a b = countChangedLines b a := by
  rw [countChangedLines_eq_magnitudeSpec, countChangedLines_eq_magnitudeSpec]
  exact magnitudeSpec_comm a b

/-! ## Edit trigger — src/frontend/src/app/App.tsx lines 14 and 443-462 -/

def AI_REFRESH_LINE_THRESHOLD : Nat := 5

/-- JS record lookup with a default (`map[k] || d`). -/
def recordGetD {β : Type} (m : List (String × β)) (k : String) (d : β) : β :=
  match m.find? (fun p => p.1 == k) with
  | some p => p.2
  | none => d

/-- JS record assignment `map[k] = v`. -/
def recordSet {β : Type} (m : List (String × β)) (k : String) (v : β) : List (String × β) :=
  if m.any (fun p => p.1 == k) then
    m.map (fun p => if p.1 == k then (k, v) else p)
  else
    m ++ [(k, v)]

/-- The part of the App state read and written by `handleCodeChange`:
`filesContent`, `pendingAiLineChangesRef.current` and `aiPanelCode`. -/
structure EditorState where
  filesContent : List (String × String)
  pendingAiLineChanges : List (String × Nat)
  aiPanelCode : String
deriving DecidableEq, Repr

structure EditOutcome where
  state : EditorState
  refreshed : Bool
deriving DecidableEq, Repr

/-- src/frontend/src/app/App.tsx lines 443-462: compute the changed-line
magnitude against the previous content, accumulate it per file, refresh the
AI-panel snapshot and reset the accumulator when the threshold is reached,
then store the new content. -/
def handleCodeChange (st : EditorState) (currentFile : String) (newCode : String) : EditOutcome :=
  let previousCode := recordGetD st.filesContent currentFile ""
  let changedLines := countChangedLines previousCode newCode
  let next :=
    if changedLines > 0 then
      let pending := recordGetD st.pendingAiLineChanges currentFile 0
      let nextPending := pending + changedLines
      if nextPending ≥ AI_REFRESH_LINE_THRESHOLD then
        (recordSet st.pendingAiLineChanges currentFile 0, newCode, true)
      else
        (recordSet st.pendingAiLineChanges currentFile nextPending, st.aiPanelCode, false)
    else
      (st.pendingAiLineChanges, st.aiPanelCode, false)
  { state := { filesContent := recordSet st.filesContent currentFile newCode,
               pendingAiLineChanges := next.1, aiPanelCode := next.2.1 },
    refreshed := next.2.2 }

theorem find?_map_set {β : Type} : ∀ (m : List (String × β)) (k : String) (v : β),
    m.any (fun p => p.1 == k) = true →
    (m.map (fun p => if p.1 == k then (k, v) else p)).find? (fun p => p.1 == k) = some (k, v) := by
  intro m
  induction m with
  | nil => intro k v h; simp at h
  | cons p ps ih =>
    intro k v h
    by_cases hp : p.1 == k
    · simp [List.find?, hp]
    · simp only [List.map_cons]
      rw [if_neg (by simpa using hp)]
      rw [List.find?]
      simp only [hp, cond_false]
      apply ih
      simp only [List.any_cons, hp, Bool.false_or] at h
      exact h

theorem find?_append_self {β : Type} : ∀ (m : List (String × β)) (k : String) (v : β),
    m.any (fun p => p.1 == k) = false →
    (m ++ [(k, v)]).find? (fun p => p.1 == k) = some (k, v) := by
  intro m
  induction m with
  | nil => intro k v h; simp [List.find?]
  | cons p ps ih =>
    intro k v h
    simp only [List.any_cons, Bool.or_eq_false_iff] at h
    simp only [List.cons_append]
    rw [List.find?]
    simp only [h.1, cond_false]
    exact ih k v h.2

/-- Writing a key then reading it back returns the written value. -/
theorem recordGetD_set_self {β : Type} (m : List (String × β)) (k : String) (v d : β) :
    recordGetD (recordSet m k v) k d = v := by
  unfold recordSet
  by_cases hany : m.any (fun p => p.1 == k) = true
  · rw [if_pos hany]
    unfold recordGetD
    rw [find?_map_set m k v hany]
  · rw [if_neg hany]
    unfold recordGetD
    rw [find?_append_self m k v (by simp only [Bool.not_eq_true] at hany; exact hany)]

/-- C6: starting from a pending change count of 0 for the active file, the
edit sequence with per-edit magnitudes 3, 0, 3 takes the accumulator through
0 → 3 → 3 → 6 against threshold 5: no refresh at the first two edits, exactly
one refresh at the third (the AI-panel snapshot becomes the new content) and
the accumulator resets to 0 immediately after; in general a refresh fires in
`handleCodeChange` exactly when the accumulated magnitude reaches
`AI_REFRESH_LINE_THRESHOLD`, and firing resets the file's accumulator to 0. -/
theorem claim_C6 :
    (let st0 : EditorState := ⟨[("main.py", "a")], [], "a"⟩
     let r1 := handleCodeChange st0 "main.py" "x\ny\nz"
     let r2 := handleCodeChange r1.state "main.py" "x\ny\nz"
     let r3 := handleCodeChange r2.state "main.py" "p\nq\nr"
     r1.refreshed = false ∧ recordGetD r1.state.pendingAiLineChanges "main.py" 0 = 3 ∧
     r1.state.aiPanelCode = "a" ∧
     r2.refreshed = false ∧ recordGetD r2.state.pendingAiLineChanges "main.py" 0 = 3 ∧
     r2.state.aiPanelCode = "a" ∧
     r3.refreshed = true ∧ recordGetD r3.state.pendingAiLineChanges "main.py" 0 = 0 ∧
     r3.state.aiPanelCode = "p\nq\nr") ∧
    (∀ (st : EditorState) (f newCode : String),
      (handleCodeChange st f newCode).refreshed = true ↔
        (0 < countChangedLines (recordGetD st.filesContent f "") newCode ∧
         AI_REFRESH_LINE_THRESHOLD ≤ recordGetD st.pendingAiLineChanges f 0 +
           countChangedLines (recordGetD st.filesContent f "") newCode)) ∧
    (∀ (st : EditorState) (f newCode : String),
      (handleCodeChange st f newCode).refreshed = true →
        recordGetD (handleCodeChange st f newCode).state.pendingAiLineChanges f 0 = 0) := by
  refine ⟨?_, ?_, ?_⟩
  · have h1 : countChangedLines "a" "x\ny\nz" = 3 := by
      rw [countChangedLines_eq_magnitudeSpec]; decide
    have h2 : countChangedLines "x\ny\nz" "x\ny\nz" = 0 := countChangedLines_self _
    have h3 : countChangedLines "x\ny\nz" "p\nq\nr" = 3 := by
      rw [countChangedLines_eq_magnitudeSpec]; decide
    simp only [handleCodeChange, recordGetD, recordSet, AI_REFRESH_LINE_THRESHOLD]
    norm_num [h1, h2, h3, List.find?, List.any_cons]
  · intro st f newCode
    simp only [handleCodeChange, AI_REFRESH_LINE_THRESHOLD]
    split_ifs with hpos hthr
    · simp [hpos, hthr]
    · simp [hthr]
    · simp [hpos]
  · intro st f newCode
    simp only [handleCodeChange, AI_REFRESH_LINE_THRESHOLD]
    split_ifs with hpos hthr
    · intro _
      simpa using recordGetD_set_self st.pendingAiLineChanges f 0 0
    · intro hfalse
      simp at hfalse
    · intro hfalse
      simp at hfalse

/-! ## Unit extractor — src/frontend/src/app/components/AIPanel.tsx lines 37-38 and 50-99 -/

/-- `line.replace(/\t/g, "    ")` : every tab becomes four spaces. -/
def expandTabs : List Char → List Char
  | [] => []
  | c :: r => if c = '\t' then ' ' :: ' ' :: ' ' :: ' ' :: expandTabs r else c :: expandTabs r

/-- AIPanel.tsx lines 37-38: `normalizeIndent` — length of the leading
whitespace run after tab expansion (`match(/^\s*/)[0].length`). -/
def normalizeIndent (line : Line) : Nat :=
  ((expandTabs line).takeWhile jsSpace).length

/-- `!line.trim()` : the line is empty or all whitespace. -/
def isBlankLine (line : Line) : Bool :=
  jsTrimL line = []

/-- The decorator pattern `/^(\s*)@/`. -/
def isDecoratorLine (line : Line) : Bool :=
  match line.dropWhile jsSpace with
  | '@' :: _ => true
  | _ => false

def identStartChar (c : Char) : Bool := c.isAlpha || c = '_'

def identChar (c : Char) : Bool := c.isAlphanum || c = '_'

/-- The definition pattern `/^(\s*)def\s+([A-Za-z_]\w*)\s*\(/` of
AIPanel.tsx line 56; returns capture group 2 (the function name) on a match. -/
def defLineName (line : Line) : Option (List Char) :=
  match line.dropWhile jsSpace with
  | 'd' :: 'e' :: 'f' :: rest =>
    if (rest.takeWhile jsSpace).isEmpty then none
    else
      match rest.dropWhile jsSpace with
      | c :: cs =>
        if identStartChar c then
          match (cs.dropWhile identChar).dropWhile jsSpace with
          | '(' :: _ => some (c :: cs.takeWhile identChar)
          | _ => none
        else none
      | [] => none
  | _ => none

/-- AIPanel.tsx lines 65-75: the `while (start > 0)` loop that extends the
unit upward over contiguous same-indentation decorator lines. -/
def scanDecorators (lines : List Line) (defIndent : Nat) : Nat → Nat
  | 0 => 0
  | s + 1 =>
    let prevLine := lines.getD s []
    if isBlankLine prevLine then s + 1
    else if !isDecoratorLine prevLine || normalizeIndent prevLine ≠ defIndent then s + 1
    else scanDecorators lines defIndent s

/-- AIPanel.tsx lines 77-88: the `while (end < lines.length)` loop that
extends the unit downward over blank lines and deeper-indented lines. -/
def scanBlockEnd (lines : List Line) (defIndent : Nat) (e : Nat) : Nat :=
  if h : e < lines.length then
    let currentLine := lines.getD e []
    if isBlankLine currentLine then scanBlockEnd lines defIndent (e + 1)
    else if normalizeIndent currentLine ≤ defIndent then e
    else scanBlockEnd lines defIndent (e + 1)
  else e
termination_by lines.length - e

/-- A unit as delimited by the scanner: the name captured by the def pattern
and the `[start, end)` line span (`lines.slice(start, end)`). -/
structure PyUnit where
  functionName : List Char
  startIdx : Nat
  endIdx : Nat
deriving DecidableEq, Repr

/-- The `{ functionName, source }` record the extractor pushes
(`lines.slice(start, end).join("\n")`). -/
structure PythonFunctionBlock where
  functionName : List Char
  source : List Char
deriving DecidableEq, Repr

def sliceLines (lines : List Line) (s e : Nat) : List Line :=
  (lines.drop s).take (e - s)

theorem le_scanBlockEnd (lines : List Line) (d : Nat) :
    ∀ e, e ≤ scanBlockEnd lines d e := by
  have main : ∀ n e, lines.length - e ≤ n → e ≤ scanBlockEnd lines d e := by
    intro n
    induction n with
    | zero =>
      intro e he
      rw [scanBlockEnd]
      split
      · omega
      · exact le_refl e
    | succ m ih =>
      intro e he
      rw [scanBlockEnd]
      split
      · rename_i hlt
        dsimp only
        split
        · have := ih (e + 1) (by omega)
          omega
        · split
          · exact le_refl e
          · have := ih (e + 1) (by omega)
            omega
      · exact le_refl e
  intro e
  exact main (lines.length - e) e (le_refl _)

/-- AIPanel.tsx lines 54-96: the main `while (i < lines.length)` scan. -/
def extractLoop (lines : List Line) (i : Nat) : List PyUnit :=
  if h : i < lines.length then
    match defLineName (lines.getD i []) with
    | none => extractLoop lines (i + 1)
    | some nameChars =>
      let defIndent := normalizeIndent (lines.getD i [])
      let s := scanDecorators lines defIndent i
      let e := scanBlockEnd lines defIndent (i + 1)
      ⟨nameChars, s, e⟩ :: extractLoop lines e
  else []
termination_by lines.length - i
decreasing_by
  · omega
  · have := le_scanBlockEnd lines (normalizeIndent (lines.getD i [])) (i + 1)
    omega

/-- The units of a file: spans plus names, before projection to
`{functionName, source}`. -/
def extractPythonUnits (content : String) : List PyUnit :=
  extractLoop (splitNl content.data) 0

/-- AIPanel.tsx lines 50-99: `extractPythonFunctions`, returning name and
joined source slice for each unit. -/
def extractPythonFunctions (content : String) : List PythonFunctionBlock :=
  let lines := splitNl content.data
  (extractLoop lines 0).map
    (fun u => ⟨u.functionName, joinNl (sliceLines lines u.startIdx u.endIdx)⟩)

/-! Fuel-indexed twins of the two well-founded scans, used only so that
concrete runs reduce inside the kernel; each is proven equal to the scan it
mirrors whenever the fuel covers the remaining lines. -/

def scanBlockEndF (lines : List Line) (defIndent : Nat) : Nat → Nat → Nat
  | 0, e => e
  | fuel + 1, e =>
    if e < lines.length then
      if isBlankLine (lines.getD e []) then scanBlockEndF lines defIndent fuel (e + 1)
      else if normalizeIndent (lines.getD e []) ≤ defIndent then e
      else scanBlockEndF lines defIndent fuel (e + 1)
    else e

theorem scanBlockEnd_eq_fuel (lines : List Line) (d : Nat) :
    ∀ fuel e, lines.length - e ≤ fuel → scanBlockEnd lines d e = scanBlockEndF lines d fuel e := by
  intro fuel
  induction fuel with
  | zero =>
    intro e he
    rw [scanBlockEnd, scanBlockEndF]
    split
    · omega
    · rfl
  | succ m ih =>
    intro e he
    rw [scanBlockEnd, scanBlockEndF]
    split
    · dsimp only
      split
      · exact ih (e + 1) (by omega)
      · split
        · rfl
        · exact ih (e + 1) (by omega)
    · rfl

def extractLoopF (lines : List Line) : Nat → Nat → List PyUnit
  | 0, _ => []
  | fuel + 1, i =>
    if i < lines.length then
      match defLineName (lines.getD i []) with
      | none => extractLoopF lines fuel (i + 1)
      | some nameChars =>
        let defIndent := normalizeIndent (lines.getD i [])
        let s := scanDecorators lines defIndent i
        let e := scanBlockEndF lines defIndent lines.length (i + 1)
        ⟨nameChars, s, e⟩ :: extractLoopF lines fuel e
    else []

theorem extractLoop_eq_fuel (lines : List Line) :
    ∀ fuel i, lines.length - i ≤ fuel → extractLoop lines i = extractLoopF lines fuel i := by
  intro fuel
  induction fuel with
  | zero =>
    intro i hi
    rw [extractLoop, extractLoopF]
    split
    · omega
    · rfl
  | succ m ih =>
    intro i hi
    rw [extractLoop, extractLoopF]
    split
    · rename_i hlt
      cases hdef : defLineName (lines.getD i []) with
      | none =>
        simp only [hdef]
        exact ih (i + 1) (by omega)
      | some nameChars =>
        simp only [hdef]
        have hse := scanBlockEnd_eq_fuel lines (normalizeIndent (lines.getD i []))
          lines.length (i + 1) (by omega)
        rw [← hse]
        have hlow := le_scanBlockEnd lines (normalizeIndent (lines.getD i [])) (i + 1)
        rw [ih (scanBlockEnd lines (normalizeIndent (lines.getD i [])) (i + 1)) (by omega)]
    · rfl

theorem extractLoop_eval (lines : List Line) :
    extractLoop lines 0 = extractLoopF lines lines.length 0 :=
  extractLoop_eq_fuel lines lines.length 0 (by omega)

theorem extractPythonUnits_eval (content : String) :
    extractPythonUnits content =
      extractLoopF (splitNl content.data) (splitNl content.data).length 0 :=
  extractLoop_eq_fuel (splitNl content.data) (splitNl content.data).length 0 (by omega)

/-- A line the upward decorator scan walks over: non-blank, decorator-shaped,
at exactly the def line's indentation. -/
def chainLine (lines : List Line) (d k : Nat) : Prop :=
  isBlankLine (lines.getD k []) = false ∧ isDecoratorLine (lines.getD k []) = true ∧
    normalizeIndent (lines.getD k []) = d

theorem scanDecorators_le (lines : List Line) (d : Nat) :
    ∀ s, scanDecorators lines d s ≤ s := by
  intro s
  induction s with
  | zero => simp [scanDecorators]
  | succ s' ih =>
    rw [scanDecorators]
    split
    · exact le_refl _
    · split
      · exact le_refl _
      · omega

theorem scanDecorators_chain (lines : List Line) (d : Nat) :
    ∀ s k, scanDecorators lines d s ≤ k → k < s → chainLine lines d k := by
  intro s
  induction s with
  | zero => intro k h1 h2; omega
  | succ s' ih =>
    intro k h1 h2
    rw [scanDecorators] at h1
    split at h1
    · omega
    · split at h1
      · omega
      · rename_i hblank hcond
        by_cases hk : k = s'
        · subst hk
          simp only [Bool.or_eq_true, Bool.not_eq_true', decide_eq_true_eq] at hcond
          push_neg at hcond
          refine ⟨by simpa using hblank, by simpa using hcond.1, hcond.2⟩
        · exact ih k h1 (by omega)

theorem scanBlockEnd_consumed (lines : List Line) (d : Nat) :
    ∀ n e, lines.length - e ≤ n → ∀ k, e ≤ k → k < scanBlockEnd lines d e →
      (isBlankLine (lines.getD k []) = true ∨ d < normalizeIndent (lines.getD k [])) := by
  intro n
  induction n with
  | zero =>
    intro e he k hk1 hk2
    rw [scanBlockEnd] at hk2
    rw [dif_neg (by omega)] at hk2
    omega
  | succ m ih =>
    intro e he k hk1 hk2
    rw [scanBlockEnd] at hk2
    split at hk2
    · rename_i hlt
      dsimp only at hk2
      split at hk2
      · rename_i hblank
        by_cases hke : k = e
        · subst hke; exact Or.inl hblank
        · exact ih (e + 1) (by omega) k (by omega) hk2
      · split at hk2
        · omega
        · rename_i hblank hind
          by_cases hke : k = e
          · subst hke; right; omega
          · exact ih (e + 1) (by omega) k (by omega) hk2
    · omega

theorem scanBlockEnd_stop (lines : List Line) (d : Nat) :
    ∀ n e, lines.length - e ≤ n → e ≤ lines.length →
      scanBlockEnd lines d e = lines.length ∨
      (scanBlockEnd lines d e < lines.length ∧
       isBlankLine (lines.getD (scanBlockEnd lines d e) []) = false ∧
       normalizeIndent (lines.getD (scanBlockEnd lines d e) []) ≤ d) := by
  intro n
  induction n with
  | zero =>
    intro e he hle
    left
    rw [scanBlockEnd]
    rw [dif_neg (by omega)]
    omega
  | succ m ih =>
    intro e he hle
    by_cases hlt : e < lines.length
    · have hunf : scanBlockEnd lines d e =
          if isBlankLine (lines.getD e []) then scanBlockEnd lines d (e + 1)
          else if normalizeIndent (lines.getD e []) ≤ d then e
          else scanBlockEnd lines d (e + 1) := by
        rw [scanBlockEnd]
        rw [dif_pos hlt]
      by_cases hblank : isBlankLine (lines.getD e []) = true
      · rw [hunf, if_pos hblank]
        exact ih (e + 1) (by omega) (by omega)
      · by_cases hind : normalizeIndent (lines.getD e []) ≤ d
        · rw [hunf, if_neg hblank, if_pos hind]
          right
          exact ⟨hlt, by simpa using hblank, hind⟩
        · rw [hunf, if_neg hblank, if_neg hind]
          exact ih (e + 1) (by omega) (by omega)
    · left
      rw [scanBlockEnd]
      rw [dif_neg hlt]
      omega

theorem scanBlockEnd_le_length (lines : List Line) (d e : Nat) (he : e ≤ lines.length) :
    scanBlockEnd lines d e ≤ lines.length := by
  rcases scanBlockEnd_stop lines d (lines.length - e) e (by omega) he with h | h
  · omega
  · omega

/-- A line matching the def pattern starts (after whitespace) with `def`. -/
theorem defLineName_shape {l : Line} (h : (defLineName l).isSome = true) :
    ∃ rest, l.dropWhile jsSpace = 'd' :: 'e' :: 'f' :: rest := by
  unfold defLineName at h
  split at h
  · rename_i rest heq
    exact ⟨rest, heq⟩
  · simp at h

theorem defLineName_not_blank {l : Line} (h : (defLineName l).isSome = true) :
    isBlankLine l = false := by
  obtain ⟨rest, hdw⟩ := defLineName_shape h
  unfold isBlankLine
  rw [decide_eq_false_iff_not]
  unfold jsTrimL
  rw [hdw]
  intro hcon
  rw [List.reverse_eq_nil_iff] at hcon
  rw [List.dropWhile_eq_nil_iff] at hcon
  have hd : ('d' : Char) ∈ ('d' :: 'e' :: 'f' :: rest).reverse := by simp
  have := hcon _ hd
  simp [jsSpace] at this

theorem defLineName_not_decorator {l : Line} (h : (defLineName l).isSome = true) :
    isDecoratorLine l = false := by
  obtain ⟨rest, hdw⟩ := defLineName_shape h
  unfold isDecoratorLine
  rw [hdw]
  rfl

theorem extractLoop_start_ge (lines : List Line) :
    ∀ n i e d, lines.length - i ≤ n → e ≤ i →
    (e = 0 ∨ isBlankLine (lines.getD (e - 1) []) = true ∨
      (defLineName (lines.getD (e - 1) [])).isSome = true ∨
      d < normalizeIndent (lines.getD (e - 1) [])) →
    (lines.length ≤ e ∨ normalizeIndent (lines.getD e []) ≤ d) →
    ∀ u ∈ extractLoop lines i, e ≤ u.startIdx := by
  intro n
  induction n with
  | zero =>
    intro i e d hn hei hblock hstop u hu
    rw [extractLoop] at hu
    rw [dif_neg (by omega)] at hu
    simp at hu
  | succ m ih =>
    intro i e d hn hei hblock hstop u hu
    rw [extractLoop] at hu
    by_cases hlt : i < lines.length
    · rw [dif_pos hlt] at hu
      cases hdef : defLineName (lines.getD i []) with
      | none =>
        rw [hdef] at hu
        exact ih (i + 1) e d (by omega) (by omega) hblock hstop u hu
      | some nm =>
        rw [hdef] at hu
        simp only [List.mem_cons] at hu
        rcases hu with hu | hu
        · subst hu
          show e ≤ scanDecorators lines (normalizeIndent (lines.getD i [])) i
          set d' := normalizeIndent (lines.getD i []) with hd'
          by_cases hse : e ≤ scanDecorators lines d' i
          · exact hse
          · exfalso
            push_neg at hse
            have he1 : 1 ≤ e := by omega
            obtain ⟨hc1, hc2, hc3⟩ :=
              scanDecorators_chain lines d' i (e - 1) (by omega) (by omega)
            rcases hblock with h0 | hb | hdp | hgt
            · omega
            · rw [hc1] at hb; cases hb
            · have hnd := defLineName_not_decorator hdp
              rw [hnd] at hc2; cases hc2
            · rcases hstop with hlen | hind
              · omega
              · by_cases hei2 : e = i
                · subst hei2
                  omega
                · obtain ⟨_, _, hce3⟩ :=
                    scanDecorators_chain lines d' i e (by omega) (by omega)
                  omega
        · set d' := normalizeIndent (lines.getD i []) with hd'
          set e2 := scanBlockEnd lines d' (i + 1) with he2
          have hge : i + 1 ≤ e2 := le_scanBlockEnd lines d' (i + 1)
          have hle : e2 ≤ lines.length := scanBlockEnd_le_length lines d' (i + 1) (by omega)
          have hblock2 : e2 = 0 ∨ isBlankLine (lines.getD (e2 - 1) []) = true ∨
              (defLineName (lines.getD (e2 - 1) [])).isSome = true ∨
              d' < normalizeIndent (lines.getD (e2 - 1) []) := by
            by_cases hei2 : e2 - 1 = i
            · right; right; left
              rw [hei2, hdef]
              rfl
            · rcases scanBlockEnd_consumed lines d' (lines.length - (i + 1)) (i + 1)
                (by omega) (e2 - 1) (by omega) (by omega) with h | h
              · right; left; exact h
              · right; right; right; exact h
          have hstop2 : lines.length ≤ e2 ∨ normalizeIndent (lines.getD e2 []) ≤ d' := by
            rcases scanBlockEnd_stop lines d' (lines.length - (i + 1)) (i + 1)
              (by omega) (by omega) with h | h
            · left; omega
            · right; exact h.2.2
          have := ih e2 e2 d' (by omega) (le_refl _) hblock2 hstop2 u hu
          omega
    · rw [dif_neg hlt] at hu
      simp at hu

theorem extractLoop_chain (lines : List Line) :
    ∀ n i, lines.length - i ≤ n →
    List.Chain' (fun u v : PyUnit => u.endIdx ≤ v.startIdx) (extractLoop lines i) := by
  intro n
  induction n with
  | zero =>
    intro i hn
    rw [extractLoop, dif_neg (by omega)]
    exact List.chain'_nil
  | succ m ih =>
    intro i hn
    rw [extractLoop]
    by_cases hlt : i < lines.length
    · rw [dif_pos hlt]
      cases hdef : defLineName (lines.getD i []) with
      | none =>
        exact ih (i + 1) (by omega)
      | some nm =>
        dsimp only
        set d' := normalizeIndent (lines.getD i []) with hd'
        set e2 := scanBlockEnd lines d' (i + 1) with he2
        have hge : i + 1 ≤ e2 := le_scanBlockEnd lines d' (i + 1)
        have hle : e2 ≤ lines.length := scanBlockEnd_le_length lines d' (i + 1) (by omega)
        rw [List.chain'_cons']
        constructor
        · intro y hy
          have hymem : y ∈ extractLoop lines e2 := List.mem_of_mem_head? hy
          have hblock2 : e2 = 0 ∨ isBlankLine (lines.getD (e2 - 1) []) = true ∨
              (defLineName (lines.getD (e2 - 1) [])).isSome = true ∨
              d' < normalizeIndent (lines.getD (e2 - 1) []) := by
            by_cases hei2 : e2 - 1 = i
            · right; right; left
              rw [hei2, hdef]
              rfl
            · rcases scanBlockEnd_consumed lines d' (lines.length - (i + 1)) (i + 1)
                (by omega) (e2 - 1) (by omega) (by omega) with h | h
              · right; left; exact h
              · right; right; right; exact h
          have hstop2 : lines.length ≤ e2 ∨ normalizeIndent (lines.getD e2 []) ≤ d' := by
            rcases scanBlockEnd_stop lines d' (lines.length - (i + 1)) (i + 1)
              (by omega) (by omega) with h | h
            · left; omega
            · right; exact h.2.2
          exact extractLoop_start_ge lines (lines.length - e2) e2 e2 d'
            (by omega) (le_refl _) hblock2 hstop2 y hymem
        · exact ih e2 (by omega)
    · rw [dif_neg hlt]
      exact List.chain'_nil

theorem extractLoop_spans (lines : List Line) :
    ∀ n i, lines.length - i ≤ n → ∀ u ∈ extractLoop lines i,
      u.startIdx < u.endIdx ∧ u.endIdx ≤ lines.length ∧
      isBlankLine (lines.getD u.startIdx []) = false := by
  intro n
  induction n with
  | zero =>
    intro i hn u hu
    rw [extractLoop, dif_neg (by omega)] at hu
    simp at hu
  | succ m ih =>
    intro i hn u hu
    rw [extractLoop] at hu
    by_cases hlt : i < lines.length
    · rw [dif_pos hlt] at hu
      cases hdef : defLineName (lines.getD i []) with
      | none =>
        rw [hdef] at hu
        exact ih (i + 1) (by omega) u hu
      | some nm =>
        rw [hdef] at hu
        simp only [List.mem_cons] at hu
        rcases hu with hu | hu
        · subst hu
          set d' := normalizeIndent (lines.getD i []) with hd'
          set e2 := scanBlockEnd lines d' (i + 1) with he2
          set s' := scanDecorators lines d' i with hs'
          have h1 : s' ≤ i := scanDecorators_le lines d' i
          have h2 : i + 1 ≤ e2 := le_scanBlockEnd lines d' (i + 1)
          have h3 : e2 ≤ lines.length := scanBlockEnd_le_length lines d' (i + 1) (by omega)
          show s' < e2 ∧ e2 ≤ lines.length ∧ isBlankLine (lines.getD s' []) = false
          refine ⟨by omega, by omega, ?_⟩
          by_cases hsi : s' = i
          · rw [hsi]
            exact defLineName_not_blank (by rw [hdef]; rfl)
          · obtain ⟨hb, _, _⟩ := scanDecorators_chain lines d' i s' (le_refl _) (by omega)
            exact hb
        · exact ih (scanBlockEnd lines (normalizeIndent (lines.getD i [])) (i + 1))
            (by
              have := le_scanBlockEnd lines (normalizeIndent (lines.getD i [])) (i + 1)
              omega) u hu
    · rw [dif_neg hlt] at hu
      simp at hu

theorem extractLoop_cover (lines : List Line) :
    ∀ n i, lines.length - i ≤ n → ∀ j, i ≤ j → j < lines.length →
      (defLineName (lines.getD j [])).isSome = true →
      ∃ u ∈ extractLoop lines i, u.startIdx ≤ j ∧ j < u.endIdx := by
  intro n
  induction n with
  | zero =>
    intro i hn j hj1 hj2 hj3
    omega
  | succ m ih =>
    intro i hn j hj1 hj2 hj3
    rw [extractLoop]
    rw [dif_pos (by omega)]
    cases hdef : defLineName (lines.getD i []) with
    | none =>
      have hji : j ≠ i := by
        intro hji
        rw [hji, hdef] at hj3
        cases hj3
      exact ih (i + 1) (by omega) j (by omega) hj2 hj3
    | some nm =>
      dsimp only
      set d' := normalizeIndent (lines.getD i []) with hd'
      set e2 := scanBlockEnd lines d' (i + 1) with he2
      set s' := scanDecorators lines d' i with hs'
      have h1 : s' ≤ i := scanDecorators_le lines d' i
      have h2 : i + 1 ≤ e2 := le_scanBlockEnd lines d' (i + 1)
      by_cases hj : j < e2
      · refine ⟨⟨nm, s', e2⟩, List.mem_cons_self _ _, ?_, hj⟩
        show s' ≤ j
        omega
      · obtain ⟨u, hu, hspan⟩ := ih e2 (by omega) j (by omega) hj2 hj3
        exact ⟨u, List.mem_cons_of_mem _ hu, hspan⟩

/-- C2: for every input text, the extracted units' line spans are pairwise
non-overlapping and ordered by position (each unit ends at or before the next
begins and every span is non-empty), and every line matching the
function-definition pattern lies within the span of some returned unit. -/
theorem claim_C2 (content : String) :
    List.Chain' (fun u v : PyUnit => u.endIdx ≤ v.startIdx) (extractPythonUnits content) ∧
    (∀ u ∈ extractPythonUnits content, u.startIdx < u.endIdx ∧
      u.endIdx ≤ (splitNl content.data).length) ∧
    (∀ j, j < (splitNl content.data).length →
      (defLineName ((splitNl content.data).getD j [])).isSome = true →
      ∃ u ∈ extractPythonUnits content, u.startIdx ≤ j ∧ j < u.endIdx) := by
  unfold extractPythonUnits
  refine ⟨?_, ?_, ?_⟩
  · exact extractLoop_chain (splitNl content.data) (splitNl content.data).length 0 (by omega)
  · intro u hu
    have := extractLoop_spans (splitNl content.data) (splitNl content.data).length 0
      (by omega) u hu
    exact ⟨this.1, this.2.1⟩
  · intro j hj1 hj2
    exact extractLoop_cover (splitNl content.data) (splitNl content.data).length 0
      (by omega) j (by omega) hj1 hj2

theorem claim_C2_witness :
    (0 < (splitNl ("def f():\n    x = 1" : String).data).length ∧
      (defLineName ((splitNl ("def f():\n    x = 1" : String).data).getD 0 [])).isSome = true) ∧
    ∃ u ∈ extractPythonUnits "def f():\n    x = 1", u.startIdx ≤ 0 ∧ 0 < u.endIdx :=
  ⟨⟨by decide, by decide⟩,
   (claim_C2 "def f():\n    x = 1").2.2 0 (by decide) (by decide)⟩

/-- C4 counterexample: on `"def f():\n    pass\n\nx = 1"` the single unit's
`sourceText` is `"def f():\n    pass\n"`, whose last line is blank — the
scanner consumes the blank line before the dedented `x = 1` into the unit, so
the slice is not trimmed of trailing blank lines as the claim states. -/
theorem claim_C4_counterexample :
    (extractPythonFunctions "def f():\n    pass\n\nx = 1").map (fun b => b.source) =
      [("def f():\n    pass\n" : String).data] ∧
    (splitNl ("def f():\n    pass\n" : String).data).getLast? = some [] ∧
    isBlankLine [] = true := by
  refine ⟨?_, by decide, by decide⟩
  simp only [extractPythonFunctions]
  rw [extractLoop_eval]
  decide

/-- C4 (amended): every returned unit's `sourceText` is the contiguous,
non-empty slice `lines[start..end)` of the file's lines, and its first line is
non-blank; the last line may be blank, because blank lines walked over by the
downward scan are kept inside the slice. -/
theorem claim_C4 (content : String) :
    ∀ b ∈ extractPythonFunctions content, ∃ u ∈ extractPythonUnits content,
      b.functionName = u.functionName ∧
      b.source = joinNl (sliceLines (splitNl content.data) u.startIdx u.endIdx) ∧
      u.startIdx < u.endIdx ∧ u.endIdx ≤ (splitNl content.data).length ∧
      isBlankLine ((splitNl content.data).getD u.startIdx []) = false := by
  intro b hb
  simp only [extractPythonFunctions, List.mem_map] at hb
  obtain ⟨u, hu, hbu⟩ := hb
  refine ⟨u, hu, ?_, ?_, ?_, ?_, ?_⟩
  · rw [← hbu]
  · rw [← hbu]
  · exact (extractLoop_spans (splitNl content.data) (splitNl content.data).length 0
      (by omega) u hu).1
  · exact (extractLoop_spans (splitNl content.data) (splitNl content.data).length 0
      (by omega) u hu).2.1
  · exact (extractLoop_spans (splitNl content.data) (splitNl content.data).length 0
      (by omega) u hu).2.2

theorem claim_C4_witness :
    ∃ b ∈ extractPythonFunctions "def g():\n    y = 2",
      ∃ u ∈ extractPythonUnits "def g():\n    y = 2",
      b.functionName = u.functionName ∧
      b.source = joinNl (sliceLines (splitNl ("def g():\n    y = 2" : String).data)
        u.startIdx u.endIdx) ∧
      u.startIdx < u.endIdx ∧
      u.endIdx ≤ (splitNl ("def g():\n    y = 2" : String).data).length ∧
      isBlankLine ((splitNl ("def g():\n    y = 2" : String).data).getD u.startIdx []) = false := by
  have hmem : (⟨"g".data, "def g():\n    y = 2".data⟩ : PythonFunctionBlock) ∈
      extractPythonFunctions "def g():\n    y = 2" := by
    simp only [extractPythonFunctions]
    rw [extractLoop_eval]
    decide
  exact ⟨_, hmem, claim_C4 "def g():\n    y = 2" _ hmem⟩

theorem claim_C6_witness :
    (handleCodeChange ⟨[("f.py", "a")], [("f.py", 4)], "a"⟩ "f.py" "b").refreshed = true ∧
    recordGetD
      (handleCodeChange ⟨[("f.py", "a")], [("f.py", 4)], "a"⟩ "f.py" "b").state.pendingAiLineChanges
      "f.py" 0 = 0 := by
  have h1 : countChangedLines "a" "b" = 1 := by
    rw [countChangedLines_eq_magnitudeSpec]; decide
  have href : (handleCodeChange ⟨[("f.py", "a")], [("f.py", 4)], "a"⟩ "f.py" "b").refreshed = true := by
    simp only [handleCodeChange, recordGetD, recordSet, AI_REFRESH_LINE_THRESHOLD]
    norm_num [h1, List.find?, List.any_cons]
  exact ⟨href, claim_C6.2.2 _ "f.py" "b" href⟩

/-! ## Batcher — src/frontend/src/app/components/AIPanel.tsx lines 250-265

`analyzeCode` walks the extracted function list with
`for (let i = 0; i < extractedFunctions.length; i += batchSize)` and takes
`extractedFunctions.slice(i, i + batchSize)` with `batchSize = 5`. -/

def chunksOf5 {α : Type} : List α → List (List α)
  | [] => []
  | x :: rest => (x :: rest.take 4) :: chunksOf5 (rest.drop 4)
termination_by l => l.length
decreasing_by simp [List.length_drop]; omega

/-- Fuel twin of `chunksOf5` so concrete runs reduce in the kernel. -/
def chunksOf5F {α : Type} : Nat → List α → List (List α)
  | 0, _ => []
  | _, [] => []
  | fuel + 1, x :: rest => (x :: rest.take 4) :: chunksOf5F fuel (rest.drop 4)

theorem chunksOf5_eq_fuel {α : Type} :
    ∀ (fuel : Nat) (l : List α), l.length ≤ fuel → chunksOf5 l = chunksOf5F fuel l := by
  intro fuel
  induction fuel with
  | zero =>
    intro l hl
    cases l with
    | nil => simp [chunksOf5, chunksOf5F]
    | cons x rest => simp at hl
  | succ m ih =>
    intro l hl
    cases l with
    | nil => simp [chunksOf5, chunksOf5F]
    | cons x rest =>
      rw [chunksOf5, chunksOf5F]
      rw [ih (rest.drop 4) (by simp [List.length_drop]; simp at hl; omega)]

theorem chunksOf5_join {α : Type} :
    ∀ n (l : List α), l.length ≤ n → (chunksOf5 l).flatten = l := by
  intro n
  induction n with
  | zero =>
    intro l hl
    cases l with
    | nil => simp [chunksOf5]
    | cons x rest => simp at hl
  | succ m ih =>
    intro l hl
    cases l with
    | nil => simp [chunksOf5]
    | cons x rest =>
      rw [chunksOf5]
      rw [List.flatten_cons]
      rw [ih (rest.drop 4) (by simp [List.length_drop]; simp at hl; omega)]
      simp [List.take_append_drop]

theorem chunksOf5_mem_len {α : Type} :
    ∀ n (l : List α), l.length ≤ n → ∀ b ∈ chunksOf5 l, b.length ≤ 5 ∧ b ≠ [] := by
  intro n
  induction n with
  | zero =>
    intro l hl b hb
    cases l with
    | nil => simp [chunksOf5] at hb
    | cons x rest => simp at hl
  | succ m ih =>
    intro l hl b hb
    cases l with
    | nil => simp [chunksOf5] at hb
    | cons x rest =>
      rw [chunksOf5] at hb
      simp only [List.mem_cons] at hb
      rcases hb with hb | hb
      · subst hb
        constructor
        · simp [List.length_take]
        · simp
      · exact ih (rest.drop 4) (by simp [List.length_drop]; simp at hl; omega) b hb

theorem chunksOf5_full_except_last {α : Type} :
    ∀ n (l : List α), l.length ≤ n → ∀ b ∈ (chunksOf5 l).dropLast, b.length = 5 := by
  intro n
  induction n with
  | zero =>
    intro l hl b hb
    cases l with
    | nil => simp [chunksOf5] at hb
    | cons x rest => simp at hl
  | succ m ih =>
    intro l hl b hb
    cases l with
    | nil => simp [chunksOf5] at hb
    | cons x rest =>
      rw [chunksOf5] at hb
      cases hrest : chunksOf5 (rest.drop 4) with
      | nil => rw [hrest] at hb; simp at hb
      | cons c cs =>
        rw [hrest] at hb
        rw [List.dropLast_cons_of_ne_nil (by simp)] at hb
        simp only [List.mem_cons] at hb
        rcases hb with hb | hb
        · subst hb
          have hne : rest.drop 4 ≠ [] := by
            intro hcon
            rw [hcon] at hrest
            simp [chunksOf5] at hrest
          have : 4 < rest.length := by
            by_contra hcon
            exact hne (List.drop_eq_nil_of_le (by omega))
          simp [List.length_take]
          omega
        · have := ih (rest.drop 4) (by simp [List.length_drop]; simp at hl; omega) b
          rw [hrest] at this
          exact this hb

theorem chunksOf5_two {α : Type} (l : List α) (h : l.length = 2) : chunksOf5 l = [l] := by
  cases l with
  | nil => simp at h
  | cons x rest =>
    cases rest with
    | nil => simp at h
    | cons y rest2 =>
      cases rest2 with
      | nil => simp [chunksOf5]
      | cons z rest3 => simp at h

/-- C9: grouping the extracted unit list into consecutive batches of size 5
yields ordered batches of at most 5 units each (none empty, all but the last
of exactly 5) whose in-order concatenation reconstructs the original list;
a file with exactly two function definitions yields exactly one batch
containing both units in original order. -/
theorem claim_C9 (l : List PythonFunctionBlock) :
    (chunksOf5 l).flatten = l ∧
    (∀ b ∈ chunksOf5 l, b.length ≤ 5 ∧ b ≠ []) ∧
    (∀ b ∈ (chunksOf5 l).dropLast, b.length = 5) ∧
    (l.length = 2 → chunksOf5 l = [l]) ∧
    (extractPythonFunctions "def f():\n    return 1\ndef g():\n    return 2" =
       [⟨"f".data, ("def f():\n    return 1" : String).data⟩,
        ⟨"g".data, ("def g():\n    return 2" : String).data⟩] ∧
     chunksOf5 (extractPythonFunctions "def f():\n    return 1\ndef g():\n    return 2") =
       [extractPythonFunctions "def f():\n    return 1\ndef g():\n    return 2"]) := by
  have hext : extractPythonFunctions "def f():\n    return 1\ndef g():\n    return 2" =
      [⟨"f".data, ("def f():\n    return 1" : String).data⟩,
       ⟨"g".data, ("def g():\n    return 2" : String).data⟩] := by
    simp only [extractPythonFunctions]
    rw [extractLoop_eval]
    decide
  refine ⟨chunksOf5_join l.length l (le_refl _), chunksOf5_mem_len l.length l (le_refl _),
    chunksOf5_full_except_last l.length l (le_refl _), chunksOf5_two l, hext, ?_⟩
  rw [hext]
  exact chunksOf5_two _ rfl

theorem claim_C9_witness :
    ([⟨"a".data, "p".data⟩, ⟨"b".data, "q".data⟩] : List PythonFunctionBlock).length = 2 ∧
    chunksOf5 ([⟨"a".data, "p".data⟩, ⟨"b".data, "q".data⟩] : List PythonFunctionBlock) =
      [[⟨"a".data, "p".data⟩, ⟨"b".data, "q".data⟩]] :=
  ⟨rfl, (claim_C9 [⟨"a".data, "p".data⟩, ⟨"b".data, "q".data⟩]).2.2.2.1 rfl⟩

/-! ## Analysis run controller — AIPanel.tsx lines 142-158 and 236-297

`analyzeCode` is an async function: its only suspension points are the two
`await`s of each batch request.  The model below represents each pending
`analyzeCode` invocation as a coroutine and lets a scheduler interleave
resumptions with new runs, mirroring the single-threaded event loop.  Model
responses are given by an oracle per run: `some items` stands for a reply
that `parseJsonFromModelText` parsed and validated, `none` for a failed call
or unparseable/invalid reply (both rejected branches land in the same
`catch`).  In the source the run starts and performs its first staleness
check and request synchronously; the model splits that into a separate
`step`, which only adds possible schedules. -/

/-- One merged explanation line (rendered as
`<b>${functionName}:</b> ${text}` in the panel), tagged by producing run. -/
structure Entry where
  runId : Nat
  unitName : List Char
  text : List Char
deriving DecidableEq, Repr

def FALLBACK_TEXT : List Char := ("Unable to analyze this function." : String).data

/-- A response item `{functionName, explanation}` that passed the field
validation of `parseJsonFromModelText` (both fields strings). -/
abbrev ParsedItem := List Char × List Char

/-- The outcome of one batch request after parsing: `none` when the call
threw or `parseJsonFromModelText` threw (unparseable JSON or invalid shape),
`some items` otherwise. -/
abbrev BatchResponse := Option (List ParsedItem)

/-- `new Map(parsed.map(item => [item.functionName, item.explanation]))`
followed by `.get(k)`: the last item with the key wins. -/
def mapGetLast (items : List ParsedItem) (k : List Char) : Option (List Char) :=
  (items.reverse.find? (fun p => p.1 = k)).map (fun p => p.2)

/-- `parsedByName.get(fn.functionName) || "Unable to analyze this function."`.
JS `||` is truthiness: an absent key and an empty-string explanation both
yield the fallback. -/
def lineTextFor (items : List ParsedItem) (name : List Char) : List Char :=
  match mapGetLast items name with
  | some e => if e = [] then FALLBACK_TEXT else e
  | none => FALLBACK_TEXT

/-- AIPanel.tsx lines 277-291: the entry lines one batch appends — per unit
the parsed text or fallback on success, the fallback for every unit of the
batch when the request/parse failed. -/
def batchEntries (runId : Nat) (batch : List PythonFunctionBlock) (res : BatchResponse) :
    List Entry :=
  match res with
  | some items =>
    batch.map (fun fn => ⟨runId, fn.functionName, lineTextFor items fn.functionName⟩)
  | none => batch.map (fun fn => ⟨runId, fn.functionName, FALLBACK_TEXT⟩)

/-- One in-flight `analyzeCode` invocation: run id, its batches, the response
oracle for the requests it issues, the loop position (in batches) and whether
a request is currently awaiting its response. -/
structure RunThread where
  runId : Nat
  batches : List (List PythonFunctionBlock)
  responses : List BatchResponse
  pos : Nat
  issued : Bool
deriving DecidableEq, Repr

/-- The state the controller claims speak about: `analysisRunRef.current`,
the accumulated explanation entry lines, `isAnalyzing`, and the in-flight
`analyzeCode` coroutines. -/
structure ControllerState where
  ref : Nat
  entries : List Entry
  isAnalyzing : Bool
  threads : List RunThread
deriving DecidableEq, Repr

/-- Scheduler events: `start` is a new `analyzeCode` call (with the extracted
units and its response oracle), `bump` the effect-cleanup
`analysisRunRef.current += 1` (AIPanel.tsx line 309), `step t` resumes
coroutine `t` at its next suspension point. -/
inductive ControllerEv where
  | start (blocks : List PythonFunctionBlock) (responses : List BatchResponse)
  | bump
  | step (tid : Nat)
deriving DecidableEq, Repr

/-- AIPanel.tsx lines 236-258: `analyzeCode` entry — `runId = ref + 1` is
stored, the explanation is cleared, and with zero units the run ends at once;
otherwise the batch loop starts over `slice`-chunks of 5. -/
def startRun (s : ControllerState) (blocks : List PythonFunctionBlock)
    (responses : List BatchResponse) : ControllerState :=
  let runId := s.ref + 1
  if blocks = [] then
    { ref := runId, entries := [], isAnalyzing := false, threads := s.threads }
  else
    { ref := runId, entries := [], isAnalyzing := true,
      threads := s.threads ++ [⟨runId, chunksOf5 blocks, responses, 0, false⟩] }

/-- AIPanel.tsx lines 260-296: one resumption of the batch loop.  At the top
of an iteration (`issued = false`) the `for` guard `i < length` is checked
first, then the staleness check `analysisRunRef.current !== runId` returns
silently (discarding the coroutine), otherwise the batch request is issued.
When the awaited response arrives (`issued = true`) its result is merged
into the explanation with no further staleness check, and the loop advances.
After the last batch, `isAnalyzing` is cleared only if the run is still
current. -/
def stepThread (s : ControllerState) (tid : Nat) : ControllerState :=
  match s.threads.get? tid with
  | none => s
  | some t =>
    if t.issued then
      { s with
        entries := s.entries ++
          batchEntries t.runId (t.batches.getD t.pos []) (t.responses.getD t.pos none),
        threads := s.threads.set tid { t with pos := t.pos + 1, issued := false } }
    else if t.pos < t.batches.length then
      if s.ref ≠ t.runId then
        { s with threads := s.threads.eraseIdx tid }
      else
        { s with threads := s.threads.set tid { t with issued := true } }
    else
      { s with
        isAnalyzing := if s.ref = t.runId then false else s.isAnalyzing,
        threads := s.threads.eraseIdx tid }

def controllerStep (s : ControllerState) : ControllerEv → ControllerState
  | .start blocks responses => startRun s blocks responses
  | .bump => { s with ref := s.ref + 1 }
  | .step tid => stepThread s tid

def runEvents (evs : List ControllerEv) (s : ControllerState) : ControllerState :=
  evs.foldl controllerStep s

def initController : ControllerState := ⟨0, [], false, []⟩

/-- `startRun` with the batch chunking in kernel-reducible form. -/
theorem startRun_eval (s : ControllerState) (blocks : List PythonFunctionBlock)
    (rs : List BatchResponse) :
    startRun s blocks rs =
      if blocks = [] then
        { ref := s.ref + 1, entries := [], isAnalyzing := false, threads := s.threads }
      else
        { ref := s.ref + 1, entries := [], isAnalyzing := true,
          threads := s.threads ++ [⟨s.ref + 1, chunksOf5F blocks.length blocks, rs, 0, false⟩] } := by
  unfold startRun
  rw [chunksOf5_eq_fuel blocks.length blocks (le_refl _)]

theorem batchEntries_runId (rid : Nat) (batch : List PythonFunctionBlock)
    (res : BatchResponse) : ∀ e ∈ batchEntries rid batch res, e.runId = rid := by
  intro e he
  cases res with
  | some items =>
    simp only [batchEntries, List.mem_map] at he
    obtain ⟨fn, _, hfe⟩ := he
    rw [← hfe]
  | none =>
    simp only [batchEntries, List.mem_map] at he
    obtain ⟨fn, _, hfe⟩ := he
    rw [← hfe]

/-- Every event preserves: the superseded run id stays below the counter, no
thread of that run has a request in flight, and the superseded run's share of
the merged output never grows. -/
theorem controllerStep_preserve (r : Nat) (s : ControllerState) (ev : ControllerEv)
    (hr : r < s.ref) (hidle : ∀ t ∈ s.threads, t.runId = r → t.issued = false) :
    r < (controllerStep s ev).ref ∧
    (∀ t ∈ (controllerStep s ev).threads, t.runId = r → t.issued = false) ∧
    ((controllerStep s ev).entries.filter (fun e => e.runId == r)).Sublist
      (s.entries.filter (fun e => e.runId == r)) := by
  cases ev with
  | start blocks responses =>
    simp only [controllerStep, startRun]
    split
    · exact ⟨by show r < s.ref + 1; omega, fun t ht => hidle t ht, by simp⟩
    · refine ⟨by show r < s.ref + 1; omega, ?_, by simp⟩
      intro t ht hrun
      rcases List.mem_append.mp ht with h1 | h1
      · exact hidle t h1 hrun
      · simp only [List.mem_singleton] at h1
        subst h1
        rfl
  | bump =>
    refine ⟨?_, ?_, ?_⟩
    · show r < s.ref + 1
      omega
    · exact hidle
    · exact List.Sublist.refl _
  | step tid =>
    simp only [controllerStep, stepThread]
    cases hget : s.threads.get? tid with
    | none => exact ⟨hr, hidle, List.Sublist.refl _⟩
    | some t =>
      dsimp only
      have htmem : t ∈ s.threads := List.get?_mem hget
      by_cases hiss : t.issued = true
      · rw [if_pos hiss]
        have hne : t.runId ≠ r := by
          intro hcon
          rw [hidle t htmem hcon] at hiss
          cases hiss
        refine ⟨hr, ?_, ?_⟩
        · intro t' ht' h'
          rcases List.mem_or_eq_of_mem_set ht' with h1 | h1
          · exact hidle t' h1 h'
          · subst h1
            rfl
        · rw [List.filter_append]
          have hnil : (batchEntries t.runId (t.batches.getD t.pos [])
              (t.responses.getD t.pos none)).filter (fun e => e.runId == r) = [] := by
            rw [List.filter_eq_nil_iff]
            intro e he
            have := batchEntries_runId _ _ _ e he
            simp [this, hne]
          rw [hnil, List.append_nil]
      · rw [if_neg hiss]
        by_cases hpos : t.pos < t.batches.length
        · rw [if_pos hpos]
          by_cases hrefid : s.ref ≠ t.runId
          · rw [if_pos hrefid]
            refine ⟨hr, ?_, List.Sublist.refl _⟩
            intro t' ht' h'
            exact hidle t' ((List.eraseIdx_sublist s.threads tid).subset ht') h'
          · rw [if_neg hrefid]
            push_neg at hrefid
            refine ⟨hr, ?_, List.Sublist.refl _⟩
            intro t' ht' h'
            rcases List.mem_or_eq_of_mem_set ht' with h1 | h1
            · exact hidle t' h1 h'
            · subst h1
              exfalso
              have h'' : t.runId = r := h'
              omega
        · rw [if_neg hpos]
          refine ⟨hr, ?_, List.Sublist.refl _⟩
          intro t' ht' h'
          exact hidle t' ((List.eraseIdx_sublist s.threads tid).subset ht') h'

/-- C1 (amended): the controller checks staleness before issuing each batch
request, not before merging.  Whenever a superseded run (id below the
current counter) has no request in flight, it never contributes another
entry to the merged output and never issues another request — but a batch
already awaiting its response when the run is superseded is still merged,
so the claim as stated fails (see the counterexample). -/
theorem claim_C1 (s : ControllerState) (r : Nat) (evs : List ControllerEv)
    (hr : r < s.ref)
    (hidle : ∀ t ∈ s.threads, t.runId = r → t.issued = false) :
    ((runEvents evs s).entries.filter (fun e => e.runId == r)).Sublist
      (s.entries.filter (fun e => e.runId == r)) ∧
    (∀ t ∈ (runEvents evs s).threads, t.runId = r → t.issued = false) := by
  induction evs generalizing s with
  | nil => exact ⟨List.Sublist.refl _, hidle⟩
  | cons ev rest ih =>
    obtain ⟨h1, h2, h3⟩ := controllerStep_preserve r s ev hr hidle
    have hrest := ih (controllerStep s ev) h1 h2
    rw [runEvents] at hrest ⊢
    rw [List.foldl_cons]
    exact ⟨(hrest.1).trans h3, hrest.2⟩

/-- C1 counterexample: run 1 issues its only batch, run 2 starts (superseding
run 1 and clearing the panel), run 2 completes, and only then does run 1's
response arrive — it is merged with no staleness check, so an entry tagged by
superseded run 1 is visible in the final merged output. -/
theorem claim_C1_counterexample :
    (runEvents
      [ControllerEv.start [⟨"f".data, ("def f(): pass" : String).data⟩]
         [some [("f".data, ("stale" : String).data)]],
       ControllerEv.step 0,
       ControllerEv.start [⟨"f".data, ("def f(): pass" : String).data⟩]
         [some [("f".data, ("fresh" : String).data)]],
       ControllerEv.step 1, ControllerEv.step 1, ControllerEv.step 1,
       ControllerEv.step 0, ControllerEv.step 0] initController).entries
      = [⟨2, "f".data, ("fresh" : String).data⟩, ⟨1, "f".data, ("stale" : String).data⟩] ∧
    (runEvents
      [ControllerEv.start [⟨"f".data, ("def f(): pass" : String).data⟩]
         [some [("f".data, ("stale" : String).data)]],
       ControllerEv.step 0,
       ControllerEv.start [⟨"f".data, ("def f(): pass" : String).data⟩]
         [some [("f".data, ("fresh" : String).data)]],
       ControllerEv.step 1, ControllerEv.step 1, ControllerEv.step 1,
       ControllerEv.step 0, ControllerEv.step 0] initController).entries.filter
        (fun e => e.runId == 1) ≠ [] := by
  constructor
  · simp only [runEvents, List.foldl, controllerStep, startRun_eval]
    decide
  · simp only [runEvents, List.foldl, controllerStep, startRun_eval]
    decide

theorem claim_C1_witness :
    (1 < (⟨2, [⟨1, "f".data, "x".data⟩], true,
        [⟨1, [], [], 0, false⟩]⟩ : ControllerState).ref ∧
      (∀ t ∈ (⟨2, [⟨1, "f".data, "x".data⟩], true,
        [⟨1, [], [], 0, false⟩]⟩ : ControllerState).threads, t.runId = 1 → t.issued = false)) ∧
    ((runEvents [ControllerEv.step 0, ControllerEv.bump]
        ⟨2, [⟨1, "f".data, "x".data⟩], true, [⟨1, [], [], 0, false⟩]⟩).entries.filter
      (fun e => e.runId == 1)).Sublist
      ((⟨2, [⟨1, "f".data, "x".data⟩], true,
        [⟨1, [], [], 0, false⟩]⟩ : ControllerState).entries.filter (fun e => e.runId == 1)) :=
  ⟨⟨by decide, by decide⟩,
   (claim_C1 ⟨2, [⟨1, "f".data, "x".data⟩], true, [⟨1, [], [], 0, false⟩]⟩ 1
     [ControllerEv.step 0, ControllerEv.bump] (by decide) (by decide)).1⟩

/-- The sequential merge of a run's batches: what `analyzeCode` accumulates
into the explanation when it runs to completion (one append per batch). -/
def mergeAll (runId : Nat) : List (List PythonFunctionBlock) → List BatchResponse → List Entry
  | [], _ => []
  | b :: bs, rs => batchEntries runId b (rs.getD 0 none) ++ mergeAll runId bs (rs.drop 1)

/-- The text the merge gives one unit: the matched explanation if the batch
response parsed and the name maps to a non-empty string, the literal fallback
otherwise. -/
def expectedText (res : BatchResponse) (name : List Char) : List Char :=
  match res with
  | some items => lineTextFor items name
  | none => FALLBACK_TEXT

theorem mergeAll_length (runId : Nat) :
    ∀ (bs : List (List PythonFunctionBlock)) (rs : List BatchResponse),
      (mergeAll runId bs rs).length = bs.flatten.length := by
  intro bs
  induction bs with
  | nil => intro rs; rfl
  | cons b bs' ih =>
    intro rs
    simp only [mergeAll, List.length_append, List.flatten_cons, ih]
    congr 1
    cases rs.getD 0 none <;> simp [batchEntries]

/-- An uninterrupted run merges its batches in sequence: starting at batch
`p` with no request in flight and the run still current, `2·n + 1` steps
(issue and resolve per remaining batch, then the epilogue) finish the run and
append exactly the sequential merge of the remaining batches. -/
theorem soloRun (r : Nat) (bs : List (List PythonFunctionBlock)) (rs : List BatchResponse) :
    ∀ n (E : List Entry) p, bs.length = p + n →
    runEvents (List.replicate (2 * n + 1) (ControllerEv.step 0)) ⟨r, E, true, [⟨r, bs, rs, p, false⟩]⟩
      = ⟨r, E ++ mergeAll r (bs.drop p) (rs.drop p), false, []⟩ := by
  intro n
  induction n with
  | zero =>
    intro E p hp
    have hdrop : bs.drop p = [] := List.drop_eq_nil_of_le (by omega)
    rw [hdrop]
    simp only [mergeAll, List.append_nil]
    show runEvents [ControllerEv.step 0] _ = _
    simp only [runEvents, List.foldl, controllerStep, stepThread, List.get?]
    rw [if_neg (by simp), if_neg (by show ¬(p < bs.length); omega)]
    simp [List.eraseIdx]
  | succ m ih =>
    intro E p hp
    have hlt : p < bs.length := by omega
    have hrep : (2 * (m + 1) + 1) = ((2 * m + 1) + 1) + 1 := by ring
    rw [hrep, List.replicate_succ, List.replicate_succ]
    show runEvents (ControllerEv.step 0 :: ControllerEv.step 0 ::
      List.replicate (2 * m + 1) (ControllerEv.step 0)) _ = _
    rw [runEvents, List.foldl_cons, List.foldl_cons, ← runEvents]
    have hstep1 : controllerStep ⟨r, E, true, [⟨r, bs, rs, p, false⟩]⟩ (ControllerEv.step 0)
        = ⟨r, E, true, [⟨r, bs, rs, p, true⟩]⟩ := by
      simp only [controllerStep, stepThread, List.get?]
      rw [if_neg (by simp), if_pos hlt, if_neg (by simp)]
      simp [List.set]
    have hstep2 : controllerStep ⟨r, E, true, [⟨r, bs, rs, p, true⟩]⟩ (ControllerEv.step 0)
        = ⟨r, E ++ batchEntries r (bs.getD p []) (rs.getD p none), true,
            [⟨r, bs, rs, p + 1, false⟩]⟩ := by
      simp only [controllerStep, stepThread, List.get?]
      simp [List.set]
    rw [hstep1, hstep2]
    rw [ih (E ++ batchEntries r (bs.getD p []) (rs.getD p none)) (p + 1) (by omega)]
    have h1 : bs.getD p [] = bs[p] := by
      rw [List.getD_eq_getElem?_getD, List.getElem?_eq_getElem hlt]
      rfl
    have h2 : (rs.drop p).getD 0 none = rs.getD p none := by
      rw [List.getD_eq_getElem?_getD, List.getD_eq_getElem?_getD, List.getElem?_drop,
        Nat.add_zero]
    have h3 : (rs.drop p).drop 1 = rs.drop (p + 1) := by
      rw [List.drop_drop, Nat.add_comm]
    have hsplit : mergeAll r (bs.drop p) (rs.drop p) =
        batchEntries r (bs.getD p []) (rs.getD p none) ++
          mergeAll r (bs.drop (p + 1)) (rs.drop (p + 1)) := by
      rw [List.drop_eq_getElem_cons hlt, mergeAll, h1, h2, h3]
    rw [hsplit, List.append_assoc]

theorem batchEntries_getD (rid : Nat) (batch : List PythonFunctionBlock)
    (res : BatchResponse) (i : Nat) (h : i < batch.length) :
    (batchEntries rid batch res).getD i ⟨0, [], []⟩ =
      ⟨rid, (batch.getD i ⟨[], []⟩).functionName,
        expectedText res (batch.getD i ⟨[], []⟩).functionName⟩ := by
  have hbatch : batch.getD i ⟨[], []⟩ = batch[i] := by
    rw [List.getD_eq_getElem?_getD, List.getElem?_eq_getElem h]
    rfl
  cases res with
  | some items =>
    simp only [batchEntries, expectedText]
    rw [List.getD_eq_getElem?_getD, List.getElem?_map, List.getElem?_eq_getElem h, hbatch]
    rfl
  | none =>
    simp only [batchEntries, expectedText]
    rw [List.getD_eq_getElem?_getD, List.getElem?_map, List.getElem?_eq_getElem h, hbatch]
    rfl

theorem mergeAll_chunks_getD (r : Nat) :
    ∀ n (blocks : List PythonFunctionBlock) (rs : List BatchResponse) (i : Nat),
      blocks.length ≤ n → i < blocks.length →
      (mergeAll r (chunksOf5 blocks) rs).getD i ⟨0, [], []⟩ =
        ⟨r, (blocks.getD i ⟨[], []⟩).functionName,
          expectedText (rs.getD (i / 5) none) (blocks.getD i ⟨[], []⟩).functionName⟩ := by
  intro n
  induction n with
  | zero =>
    intro blocks rs i hn hi
    omega
  | succ m ih =>
    intro blocks rs i hn hi
    cases blocks with
    | nil => simp at hi
    | cons x rest =>
      rw [chunksOf5, mergeAll]
      have hc0 : (x :: rest.take 4) = (x :: rest).take 5 := by
        rw [List.take_succ_cons]
      have hlen0 : (x :: rest.take 4).length = min 5 (x :: rest).length := by
        rw [hc0, List.length_take]
      have hlb : (batchEntries r (x :: rest.take 4) (rs.getD 0 none)).length
          = (x :: rest.take 4).length := by
        cases hres : rs.getD 0 none <;> simp [batchEntries]
      by_cases hfirst : i < (x :: rest.take 4).length
      · have hi5 : i < 5 := by
          rw [hlen0] at hfirst
          simp only [List.length_cons] at hfirst
          omega
        have hfb : i < (batchEntries r (x :: rest.take 4) (rs.getD 0 none)).length := by
          rw [hlb]
          exact hfirst
        rw [List.getD_eq_getElem?_getD, List.getElem?_append_left hfb,
          ← List.getD_eq_getElem?_getD]
        rw [batchEntries_getD r _ _ i hfirst]
        have htake : (x :: rest.take 4).getD i ⟨[], []⟩ = (x :: rest).getD i ⟨[], []⟩ := by
          rw [hc0]
          rw [List.getD_eq_getElem?_getD, List.getD_eq_getElem?_getD]
          rw [List.getElem?_take, if_pos hi5]
        rw [htake]
        rw [Nat.div_eq_of_lt hi5]
      · push_neg at hfirst
        have hf2 : 5 ⊓ (x :: rest).length ≤ i := by
          rw [← hlen0]
          exact hfirst
        have hlen5 : (x :: rest.take 4).length = 5 := by
          rw [hlen0]
          simp only [List.length_cons] at hf2 hi ⊢
          omega
        rw [List.getD_eq_getElem?_getD]
        rw [List.getElem?_append_right (by omega)]
        rw [hlb, hlen5]
        rw [← List.getD_eq_getElem?_getD]
        have hdrop4 : rest.drop 4 = (x :: rest).drop 5 := by
          rw [List.drop_succ_cons]
        have hlen' : ((x :: rest).drop 5).length = (x :: rest).length - 5 := by
          rw [List.length_drop]
        rw [hdrop4]
        rw [ih ((x :: rest).drop 5) (rs.drop 1) (i - 5)
          (by rw [hlen']; simp only [List.length_cons] at hn ⊢; omega)
          (by rw [hlen']; simp only [List.length_cons] at hi ⊢; omega)]
        have hblocks : ((x :: rest).drop 5).getD (i - 5) ⟨[], []⟩ = (x :: rest).getD i ⟨[], []⟩ := by
          rw [List.getD_eq_getElem?_getD, List.getD_eq_getElem?_getD, List.getElem?_drop]
          congr 2
          omega
        have hrs : (rs.drop 1).getD ((i - 5) / 5) none = rs.getD (i / 5) none := by
          rw [List.getD_eq_getElem?_getD, List.getD_eq_getElem?_getD, List.getElem?_drop]
          congr 2
          have h5 : i = (i - 5) + 5 := by rw [hlen5] at hfirst; omega
          rw [h5, Nat.add_div_right _ (by omega)]
          omega
        rw [hblocks, hrs]

/-- C3 counterexample: a solo run whose batch response parses, validates and
contains the unit's functionName mapped to the empty string — the claim says
the parsed explanation is shown, but JS `||` treats `""` as falsy and the
code shows the literal fallback instead. -/
theorem claim_C3_counterexample :
    (runEvents
      [ControllerEv.start [⟨"f".data, ("def f(): pass" : String).data⟩]
         [some [("f".data, ([] : List Char))]],
       ControllerEv.step 0, ControllerEv.step 0, ControllerEv.step 0] initController).entries
      = [⟨1, "f".data, FALLBACK_TEXT⟩] ∧
    mapGetLast [("f".data, ([] : List Char))] "f".data = some [] ∧
    FALLBACK_TEXT ≠ [] := by
  refine ⟨?_, by decide, by decide⟩
  simp only [runEvents, List.foldl, controllerStep, startRun_eval]
  decide

/-- C3 (amended): a run that completes while still the latest merges exactly
one explanation line per extracted unit, in order: the i-th entry carries the
i-th unit's name, and its text is the parsed explanation matched by name in
the unit's batch response when that response parsed, validated and mapped the
name to a non-empty string, and the literal fallback
"Unable to analyze this function." otherwise (failed call, unparseable or
invalid response, name absent, or name mapped to the empty string) — no unit
is left unrepresented. -/
theorem claim_C3 (blocks : List PythonFunctionBlock) (rs : List BatchResponse)
    (hne : blocks ≠ []) :
    (runEvents (ControllerEv.start blocks rs ::
        List.replicate (2 * (chunksOf5 blocks).length + 1) (ControllerEv.step 0))
        initController).entries.length = blocks.length ∧
    (runEvents (ControllerEv.start blocks rs ::
        List.replicate (2 * (chunksOf5 blocks).length + 1) (ControllerEv.step 0))
        initController).isAnalyzing = false ∧
    (runEvents (ControllerEv.start blocks rs ::
        List.replicate (2 * (chunksOf5 blocks).length + 1) (ControllerEv.step 0))
        initController).threads = [] ∧
    ∀ i, i < blocks.length →
      (runEvents (ControllerEv.start blocks rs ::
          List.replicate (2 * (chunksOf5 blocks).length + 1) (ControllerEv.step 0))
          initController).entries.getD i ⟨0, [], []⟩ =
        ⟨1, (blocks.getD i ⟨[], []⟩).functionName,
          expectedText (rs.getD (i / 5) none) (blocks.getD i ⟨[], []⟩).functionName⟩ := by
  have hstart : controllerStep initController (ControllerEv.start blocks rs)
      = ⟨1, [], true, [⟨1, chunksOf5 blocks, rs, 0, false⟩]⟩ := by
    simp only [controllerStep, startRun, initController]
    rw [if_neg hne]
    rfl
  have hrun : runEvents (ControllerEv.start blocks rs ::
      List.replicate (2 * (chunksOf5 blocks).length + 1) (ControllerEv.step 0)) initController
      = ⟨1, mergeAll 1 (chunksOf5 blocks) rs, false, []⟩ := by
    rw [runEvents, List.foldl_cons, ← runEvents, hstart]
    have := soloRun 1 (chunksOf5 blocks) rs (chunksOf5 blocks).length [] 0 (by omega)
    simpa using this
  rw [hrun]
  refine ⟨?_, rfl, rfl, ?_⟩
  · show (mergeAll 1 (chunksOf5 blocks) rs).length = blocks.length
    rw [mergeAll_length, chunksOf5_join blocks.length blocks (le_refl _)]
  · intro i hi
    exact mergeAll_chunks_getD 1 blocks.length blocks rs i (le_refl _) hi

theorem claim_C3_witness :
    (([⟨"f".data, ("def f(): pass" : String).data⟩] : List PythonFunctionBlock) ≠ [] ∧
      0 < ([⟨"f".data, ("def f(): pass" : String).data⟩] : List PythonFunctionBlock).length) ∧
    (runEvents (ControllerEv.start [⟨"f".data, ("def f(): pass" : String).data⟩]
        [some [("f".data, ("ok" : String).data)]] ::
        List.replicate
          (2 * (chunksOf5 ([⟨"f".data, ("def f(): pass" : String).data⟩] :
            List PythonFunctionBlock)).length + 1)
          (ControllerEv.step 0)) initController).entries.getD 0 ⟨0, [], []⟩ =
      ⟨1, (([⟨"f".data, ("def f(): pass" : String).data⟩] :
            List PythonFunctionBlock).getD 0 ⟨[], []⟩).functionName,
        expectedText (([some [("f".data, ("ok" : String).data)]] :
            List BatchResponse).getD 0 none)
          (([⟨"f".data, ("def f(): pass" : String).data⟩] :
            List PythonFunctionBlock).getD 0 ⟨[], []⟩).functionName⟩ :=
  ⟨⟨by decide, by decide⟩,
   (claim_C3 [⟨"f".data, ("def f(): pass" : String).data⟩]
     [some [("f".data, ("ok" : String).data)]] (by decide)).2.2.2 0 (by decide)⟩

/-! ## Vibe edit applier — src/frontend/src/app/components/AIPanel.tsx lines 313-406

`fetch` and `JSON.parse` are host services; the environment oracle carries
the fetch outcome (a thrown transport error, or a response with `ok` flag,
status and the optional `choices[0].message.content` string) and the parse
outcome on the cleaned content (`JSON.parse` throwing ↦ `error`).  Thrown
error messages reaching the catch are distinguished only by whether they
contain `VITE_OPENAI_API_KEY`; of the throw sites only the missing-key guard
does. -/

def MSG_NO_FILE : String := "No active file content available."
def MSG_NO_PROMPT : String := "Enter a task prompt first."
def MSG_SET_KEY : String := "Set VITE_OPENAI_API_KEY to use Vibe Coder."
def MSG_GENERIC : String := "Failed to apply edits. Try refining the prompt."
def MSG_NO_EDIT : String := "Agent returned no applicable edit."

/-- The JSON value `JSON.parse` produced, viewed through the two fields the
code reads (`summary`, `updatedContent`); a missing or non-string field is
`none` (the `typeof` check rejects non-strings the same way). -/
structure VibeParsed where
  summary : Option String
  updatedContent : Option String
deriving DecidableEq, Repr

structure VibeFetchResponse where
  ok : Bool
  status : Nat
  content : Option String
deriving DecidableEq, Repr

structure VibeEnv where
  apiKey : Option String
  fetch : Except Unit VibeFetchResponse
  parse : Except Unit VibeParsed
deriving Repr

/-- JS falsiness of an optional string (`!x`): absent or empty. -/
def jsFalsyStr : Option String → Bool
  | none => true
  | some s => s = ""

/-- The observable outcome of `runVibeTask`: the content passed to
`onApplyActiveFileChange` (if any) and the final status message. -/
structure VibeOutcome where
  applied : Option String
  statusMessage : String
deriving DecidableEq, Repr

/-- AIPanel.tsx lines 313-406. -/
def runVibeTask (fileName code vibePrompt : String) (env : VibeEnv) : VibeOutcome :=
  if fileName = "" || code = "" then ⟨none, MSG_NO_FILE⟩
  else
    let taskPrompt := String.mk (jsTrimL vibePrompt.data)
    if taskPrompt = "" then ⟨none, MSG_NO_PROMPT⟩
    else if jsFalsyStr env.apiKey then ⟨none, MSG_SET_KEY⟩
    else
      match env.fetch with
      | .error _ => ⟨none, MSG_GENERIC⟩
      | .ok resp =>
        if !resp.ok then ⟨none, MSG_GENERIC⟩
        else
          match resp.content with
          | none => ⟨none, MSG_GENERIC⟩
          | some raw =>
            if jsTrimL raw.data = [] then ⟨none, MSG_GENERIC⟩
            else
              match env.parse with
              | .error _ => ⟨none, MSG_GENERIC⟩
              | .ok parsed =>
                match parsed.updatedContent with
                | none => ⟨none, MSG_NO_EDIT⟩
                | some u =>
                  if u = "" then ⟨none, MSG_NO_EDIT⟩
                  else
                    ⟨some u,
                     match parsed.summary with
                     | some s =>
                       if s = "" then "Applied update to " ++ fileName ++ "."
                       else s ++ " (updated " ++ fileName ++ ")"
                     | none => "Applied update to " ++ fileName ++ "."⟩

/-- C8: on every failure path of a vibe-edit request — missing
`VITE_OPENAI_API_KEY`, transport error, non-OK HTTP status, missing or empty
response content, unparseable JSON, missing or empty `updatedContent` — the
apply callback is never invoked and a single human-readable status message
results, with the missing-credential message distinct from the generic
failure message; content is applied only when every step succeeded with a
non-empty `updatedContent`. -/
theorem claim_C8 (fileName code vibePrompt : String) (env : VibeEnv)
    (hf : fileName ≠ "") (hc : code ≠ "")
    (hp : String.mk (jsTrimL vibePrompt.data) ≠ "") :
    (jsFalsyStr env.apiKey = true →
      runVibeTask fileName code vibePrompt env = ⟨none, MSG_SET_KEY⟩) ∧
    (jsFalsyStr env.apiKey = false → env.fetch = .error () →
      runVibeTask fileName code vibePrompt env = ⟨none, MSG_GENERIC⟩) ∧
    (∀ resp, jsFalsyStr env.apiKey = false → env.fetch = .ok resp → resp.ok = false →
      runVibeTask fileName code vibePrompt env = ⟨none, MSG_GENERIC⟩) ∧
    (∀ resp, jsFalsyStr env.apiKey = false → env.fetch = .ok resp → resp.ok = true →
      (resp.content = none ∨ ∃ raw, resp.content = some raw ∧ jsTrimL raw.data = []) →
      runVibeTask fileName code vibePrompt env = ⟨none, MSG_GENERIC⟩) ∧
    (∀ resp raw, jsFalsyStr env.apiKey = false → env.fetch = .ok resp → resp.ok = true →
      resp.content = some raw → jsTrimL raw.data ≠ [] → env.parse = .error () →
      runVibeTask fileName code vibePrompt env = ⟨none, MSG_GENERIC⟩) ∧
    (∀ resp raw parsed, jsFalsyStr env.apiKey = false → env.fetch = .ok resp →
      resp.ok = true → resp.content = some raw → jsTrimL raw.data ≠ [] →
      env.parse = .ok parsed →
      (parsed.updatedContent = none ∨ parsed.updatedContent = some "") →
      runVibeTask fileName code vibePrompt env = ⟨none, MSG_NO_EDIT⟩) ∧
    (∀ u, (runVibeTask fileName code vibePrompt env).applied = some u →
      ∃ parsed, env.parse = .ok parsed ∧ parsed.updatedContent = some u ∧ u ≠ "") ∧
    MSG_SET_KEY ≠ MSG_GENERIC := by
  have hguard : (fileName = "" || code = "") = false := by
    simp [hf, hc]
  refine ⟨?_, ?_, ?_, ?_, ?_, ?_, ?_, by decide⟩
  · intro hkey
    simp [runVibeTask, hguard, hp, hkey]
  · intro hkey hfetch
    simp [runVibeTask, hguard, hp, hkey, hfetch]
  · intro resp hkey hfetch hok
    simp [runVibeTask, hguard, hp, hkey, hfetch, hok]
  · intro resp hkey hfetch hok hcontent
    rcases hcontent with hcontent | ⟨raw, hcontent, hraw⟩
    · simp [runVibeTask, hguard, hp, hkey, hfetch, hok, hcontent]
    · simp [runVibeTask, hguard, hp, hkey, hfetch, hok, hcontent, hraw]
  · intro resp raw hkey hfetch hok hcontent hraw hparse
    simp [runVibeTask, hguard, hp, hkey, hfetch, hok, hcontent, hraw, hparse]
  · intro resp raw parsed hkey hfetch hok hcontent hraw hparse hupd
    rcases hupd with hupd | hupd
    · simp [runVibeTask, hguard, hp, hkey, hfetch, hok, hcontent, hraw, hparse, hupd]
    · simp [runVibeTask, hguard, hp, hkey, hfetch, hok, hcontent, hraw, hparse, hupd]
  · intro u happ
    simp only [runVibeTask, hguard, Bool.false_eq_true, if_false] at happ
    rw [if_neg hp] at happ
    split at happ
    · simp at happ
    · split at happ
      · simp at happ
      · rename_i resp heqf
        split at happ
        · simp at happ
        · split at happ
          · simp at happ
          · rename_i raw heqc
            split at happ
            · simp at happ
            · split at happ
              · simp at happ
              · rename_i parsed heqp
                split at happ
                · simp at happ
                · rename_i v hequ
                  split at happ
                  · simp at happ
                  · rename_i hv
                    simp only [VibeOutcome.mk.injEq] at happ
                    injection happ with hvu
                    refine ⟨parsed, heqp, ?_, ?_⟩
                    · rw [hequ, hvu]
                    · rw [← hvu]
                      exact hv

theorem claim_C8_witness :
    (("a.py" : String) ≠ "" ∧ ("x = 1" : String) ≠ "" ∧
      String.mk (jsTrimL ("do it" : String).data) ≠ "") ∧
    (jsFalsyStr (none : Option String) = true →
      runVibeTask "a.py" "x = 1" "do it" ⟨none, .error (), .error ()⟩ = ⟨none, MSG_SET_KEY⟩) ∧
    runVibeTask "a.py" "x = 1" "do it" ⟨none, .error (), .error ()⟩ = ⟨none, MSG_SET_KEY⟩ :=
  ⟨⟨by decide, by decide, by decide⟩,
   (claim_C8 "a.py" "x = 1" "do it" ⟨none, .error (), .error ()⟩
     (by decide) (by decide) (by decide)).1,
   (claim_C8 "a.py" "x = 1" "do it" ⟨none, .error (), .error ()⟩
     (by decide) (by decide) (by decide)).1 (by decide)⟩

/-! ## Voice session — src/unnamed/part_001 lines 38, 95-167 and 429-445 -/

def apos : Char := Char.ofNat 39

/-- part_001 line 38: `RUBBER_DUCKY_EXIT_PHRASES` (apostrophes written via
their code point). -/
def RUBBER_DUCKY_EXIT_PHRASES : List (List Char) :=
  ["stop".data, "done".data, "end session".data,
   ['t', 'h', 'a', 't', apos, 's', ' ', 'a', 'l', 'l'],
   ['w', 'e', apos, 'r', 'e', ' ', 'd', 'o', 'n', 'e']]

inductive RDStatus where
  | idle
  | listening
  | processing
  | speaking
deriving DecidableEq, Repr

inductive RDRole where
  | user
  | model
deriving DecidableEq, Repr

structure ConversationMessage where
  role : RDRole
  content : String
deriving DecidableEq, Repr

structure DuckState where
  sessionActive : Bool
  conversationHistory : List ConversationMessage
  rubberDuckyStatus : RDStatus
  voiceTranscript : String
  pendingTranscriptProcess : Bool
deriving DecidableEq, Repr

/-- Oracle for one model turn: the Gemini key and the `chat.sendMessage`
outcome — `ok (some text)` reply, `ok none` for a nullish `text()`, `error`
carrying a thrown error's message. -/
structure DuckEnv where
  geminiKey : Option String
  modelReply : Except String (Option String)
deriving Repr

def MSG_SET_GEMINI : String := "Set VITE_GEMINI_API_KEY to use Rubber Ducky."

def MSG_DIDNT_CATCH : String :=
  String.mk
    (['I', ' ', 'd', 'i', 'd', 'n', apos, 't', ' ', 'c', 'a', 't', 'c', 'h', ' ',
      't', 'h', 'a', 't', '.', ' ', 'C', 'a', 'n', ' ', 'y', 'o', 'u', ' ',
      's', 'a', 'y', ' ', 'm', 'o', 'r', 'e', '?'])

/-- part_001 lines 95-102: `endRubberDuckySession`. -/
def endRubberDuckySession (st : DuckState) : DuckState :=
  { st with
    sessionActive := false
    conversationHistory := []
    rubberDuckyStatus := .idle
    voiceTranscript := ""
    pendingTranscriptProcess := false }

/-- part_001 lines 103-167: `processRubberDuckyTranscript`.  The Bool result
records whether the model turn was invoked. -/
def processRubberDuckyTranscript (st : DuckState) (userText : String) (env : DuckEnv) :
    DuckState × Bool :=
  let trimmed := jsTrimL userText.data
  if trimmed = [] then (st, false)
  else if RUBBER_DUCKY_EXIT_PHRASES.any (fun p => jsIncludes (toLowerL trimmed) p) then
    (endRubberDuckySession st, false)
  else
    let st1 := { st with
      conversationHistory := st.conversationHistory ++ [ConversationMessage.mk .user (String.mk trimmed)]
      rubberDuckyStatus := .processing }
    if jsFalsyStr env.geminiKey then
      ({ st1 with
         conversationHistory := st1.conversationHistory ++ [ConversationMessage.mk .model MSG_SET_GEMINI]
         rubberDuckyStatus := .idle }, false)
    else
      match env.modelReply with
      | .ok replyText =>
        let aiText :=
          match replyText with
          | some t => String.mk (jsTrimL t.data)
          | none => MSG_DIDNT_CATCH
        ({ st1 with
           conversationHistory := st1.conversationHistory ++ [ConversationMessage.mk .model aiText]
           rubberDuckyStatus := .idle }, true)
      | .error msg =>
        ({ st1 with
           conversationHistory := st1.conversationHistory ++
             [ConversationMessage.mk .model
               (if jsIncludes msg.data ("VITE_GEMINI_API_KEY" : String).data
                then MSG_SET_GEMINI else msg)]
           rubberDuckyStatus := .idle }, true)

inductive PanelMode where
  | reviewer
  | teacher
  | vibe
  | voice
deriving DecidableEq, Repr

/-- part_001 lines 435-445: the transcript-finalizing effect — when listening
has stopped with a pending finalization in an active voice session, process
`transcript.trim() || voiceTranscript.trim()`, or return to idle when both
are empty. -/
def finalizeTranscript (st : DuckState) (isListening : Bool) (mode : PanelMode)
    (transcript : String) (env : DuckEnv) : DuckState × Bool :=
  if isListening = false ∧ st.pendingTranscriptProcess = true ∧
      st.sessionActive = true ∧ mode = PanelMode.voice then
    let st0 := { st with pendingTranscriptProcess := false }
    let textToProcess :=
      if jsTrimL transcript.data ≠ [] then String.mk (jsTrimL transcript.data)
      else String.mk (jsTrimL st.voiceTranscript.data)
    if textToProcess ≠ "" then processRubberDuckyTranscript st0 textToProcess env
    else ({ st0 with rubberDuckyStatus := .idle }, false)
  else (st, false)

theorem dropWhile_head_false :
    ∀ (l : List Char) (a : Char) (rest : List Char),
      l.dropWhile jsSpace = a :: rest → jsSpace a = false := by
  intro l
  induction l with
  | nil => intro a rest h; simp [List.dropWhile] at h
  | cons c t ih =>
    intro a rest h
    rw [List.dropWhile_cons] at h
    split at h
    · exact ih a rest h
    · rename_i hc
      injection h with h1 h2
      subst h1
      simpa using hc

theorem dropWhile_idem (l : List Char) :
    (l.dropWhile jsSpace).dropWhile jsSpace = l.dropWhile jsSpace := by
  cases hdw : l.dropWhile jsSpace with
  | nil => rfl
  | cons a rest =>
    rw [List.dropWhile_cons]
    rw [dropWhile_head_false l a rest hdw]
    simp

theorem getLast?_append_right' :
    ∀ (w B : List Char), B ≠ [] → (w ++ B).getLast? = B.getLast? := by
  intro w
  induction w with
  | nil => intro B h; rfl
  | cons c w' ih =>
    intro B h
    have hne : w' ++ B ≠ [] := by
      simp [h]
    cases hw : w' ++ B with
    | nil => exact absurd hw hne
    | cons x xs =>
      rw [List.cons_append, hw, List.getLast?_cons_cons, ← hw, ih B h]

theorem dropWhile_is_suffix (l : List Char) :
    ∃ w, w ++ l.dropWhile jsSpace = l := by
  induction l with
  | nil => exact ⟨[], rfl⟩
  | cons c t ih =>
    rw [List.dropWhile_cons]
    split
    · obtain ⟨w, hw⟩ := ih
      exact ⟨c :: w, by rw [List.cons_append, hw]⟩
    · exact ⟨[], rfl⟩

/-- JS `trim` is idempotent: a trimmed string has non-whitespace ends. -/
theorem jsTrimL_idem (l : List Char) : jsTrimL (jsTrimL l) = jsTrimL l := by
  unfold jsTrimL
  set y := l.dropWhile jsSpace with hy
  set z := y.reverse.dropWhile jsSpace with hz
  by_cases hzne : z = []
  · rw [hzne]
    simp
  · have hzdw : z.dropWhile jsSpace = z := by
      rw [hz]
      exact dropWhile_idem y.reverse
    have hyne : y ≠ [] := by
      intro hcon
      apply hzne
      rw [hz, hcon]
      simp
    obtain ⟨b, ys, hyc⟩ := List.exists_cons_of_ne_nil hyne
    have hheady : jsSpace b = false := by
      refine dropWhile_head_false l b ys ?_
      rw [← hy]
      exact hyc
    have hlasty : y.reverse.getLast? = some b := by
      rw [hyc, List.reverse_cons, getLast?_append_right' ys.reverse [b] (by simp)]
      rfl
    have hlastz : z.getLast? = some b := by
      obtain ⟨w, hw⟩ := dropWhile_is_suffix y.reverse
      rw [← hz] at hw
      rw [← hw, getLast?_append_right' w z hzne] at hlasty
      exact hlasty
    have hzrev : z.reverse.dropWhile jsSpace = z.reverse := by
      obtain ⟨u, us, hzr⟩ :=
        List.exists_cons_of_ne_nil (show z.reverse ≠ [] by simpa using hzne)
      have hu : u = b := by
        have h1 : z.reverse.head? = z.getLast? := List.head?_reverse z
        rw [hzr, hlastz] at h1
        exact Option.some.inj h1
      rw [hzr, List.dropWhile_cons, hu, hheady]
      simp
    rw [hzrev, List.reverse_reverse, hzdw]

theorem startsWithL_refl : ∀ (s : List Char), startsWithL s s = true := by
  intro s
  induction s with
  | nil => rfl
  | cons c t ih => simp [startsWithL, ih]

theorem jsIncludes_refl (s : List Char) : jsIncludes s s = true := by
  cases s with
  | nil => rfl
  | cons c t => simp [jsIncludes, startsWithL_refl]

/-- C7: in an active voice session, a finalized transcript that — trimmed and
lowercased — is an exit phrase (such as "stop") ends the whole session
(session flag cleared, history cleared, state idle) without invoking the
model; an empty finalized transcript returns to idle without a model call
and without touching the history. -/
theorem claim_C7 (st : DuckState) (env : DuckEnv) (transcript : String)
    (hactive : st.sessionActive = true) (hpend : st.pendingTranscriptProcess = true) :
    (toLowerL (jsTrimL transcript.data) ∈ RUBBER_DUCKY_EXIT_PHRASES →
      (finalizeTranscript st false .voice transcript env).1.sessionActive = false ∧
      (finalizeTranscript st false .voice transcript env).1.conversationHistory = [] ∧
      (finalizeTranscript st false .voice transcript env).1.rubberDuckyStatus = .idle ∧
      (finalizeTranscript st false .voice transcript env).2 = false) ∧
    (jsTrimL transcript.data = [] → jsTrimL st.voiceTranscript.data = [] →
      (finalizeTranscript st false .voice transcript env).1 =
        { st with pendingTranscriptProcess := false, rubberDuckyStatus := .idle } ∧
      (finalizeTranscript st false .voice transcript env).2 = false) := by
  constructor
  · intro h
    have hne : jsTrimL transcript.data ≠ [] := by
      intro hcon
      rw [hcon] at h
      exact absurd h (by decide)
    have hmkne : String.mk (jsTrimL transcript.data) ≠ "" := by
      intro hcon
      apply hne
      have h2 : (String.mk (jsTrimL transcript.data)).data = ("" : String).data :=
        congrArg String.data hcon
      simpa using h2
    have hany : RUBBER_DUCKY_EXIT_PHRASES.any
        (fun p => jsIncludes (toLowerL (jsTrimL transcript.data)) p) = true := by
      rw [List.any_eq_true]
      exact ⟨toLowerL (jsTrimL transcript.data), h, jsIncludes_refl _⟩
    simp only [finalizeTranscript, hpend, hactive, and_self, and_true, true_and, if_true]
    rw [if_pos hne, if_pos hmkne]
    simp only [processRubberDuckyTranscript]
    rw [jsTrimL_idem, if_neg hne, if_pos hany]
    simp [endRubberDuckySession]
  · intro h1 h2
    have hsEmpty : (⟨[]⟩ : String) = "" := rfl
    simp only [finalizeTranscript, hpend, hactive, and_self, and_true, true_and, if_true]
    rw [if_neg (by simp [h1, h2, hsEmpty])]
    exact ⟨rfl, rfl⟩

theorem claim_C7_witness :
    ((⟨true, [ConversationMessage.mk .user "hi"], .idle, "", true⟩ :
        DuckState).sessionActive = true ∧
      (⟨true, [ConversationMessage.mk .user "hi"], .idle, "", true⟩ :
        DuckState).pendingTranscriptProcess = true ∧
      toLowerL (jsTrimL ("  STOP  " : String).data) ∈ RUBBER_DUCKY_EXIT_PHRASES) ∧
    ((finalizeTranscript ⟨true, [ConversationMessage.mk .user "hi"], .idle, "", true⟩
        false .voice "  STOP  " ⟨none, .error "x"⟩).1.sessionActive = false ∧
      (finalizeTranscript ⟨true, [ConversationMessage.mk .user "hi"], .idle, "", true⟩
        false .voice "  STOP  " ⟨none, .error "x"⟩).1.conversationHistory = [] ∧
      (finalizeTranscript ⟨true, [ConversationMessage.mk .user "hi"], .idle, "", true⟩
        false .voice "  STOP  " ⟨none, .error "x"⟩).1.rubberDuckyStatus = .idle ∧
      (finalizeTranscript ⟨true, [ConversationMessage.mk .user "hi"], .idle, "", true⟩
        false .voice "  STOP  " ⟨none, .error "x"⟩).2 = false) :=
  ⟨⟨by decide, by decide, by decide⟩,
   (claim_C7 ⟨true, [ConversationMessage.mk .user "hi"], .idle, "", true⟩
     ⟨none, .error "x"⟩ "  STOP  " (by decide) (by decide)).1 (by decide)⟩

end IDE
